import Mathlib

/-!
Verification development for the Needleman-Wunsch repository
(src/Needleman-Wunsch-recmemo.c, src/Needleman-Wunsch-recmemo.h).

The four engines of the C file are embedded shallowly:
* `EditDistance_NW_Rec`            — memoized recursion (lines 49-159), with the
  memoization table and the `ManageBaseError` call log made explicit;
* `EditDistance_NW_iteratif`       — the one-row iterative engine (lines 164-225);
* `EditDistance_NW_cache_aware`    — the blocked engine (lines 231-311), whose
  `while (N > 0)` loop is embedded with fuel (it does not terminate when the
  derived block width `Z / (5*sizeof(long))` is zero and `N ≥ 1`);
* `EditDistance_NW_cache_oblivious` — the bisection engine (lines 316-410), with
  fuel for the recursion and a bounds check on the one array read
  (`tab[fin_seq]`, line 380) that the development shows can be out of range.

Sequences are `List Char`, C `long` values are `ℤ`.  Array variables of the C
code (`tab`, `col`) are embedded as functions `ℕ → ℤ` updated pointwise; every
read the C code performs on them is at a written (or explicitly initialized)
index except `tab[fin_seq]`, which is embedded with an explicit bounds check
against the declared size `taille + 1`.  C `int`/`long` narrowing in
`prev_value`/`delta` (values far below 2^31 on all inputs considered here) is
not modelled.
-/

/-- Modelled from the spec: the base classifier of `characters_to_base.h`,
which is not part of src/ (the spec treats it as an external collaborator,
"given a character, reports whether it denotes a canonical base, an unknown
base, or neither").  Canonical bases are A, C, G, T; the unknown-base wildcard
is N; every other character is a non-base character. -/
def isBase (c : Char) : Bool :=
  c == 'A' || c == 'C' || c == 'G' || c == 'T' || c == 'N'

/-- Modelled from the spec: N is the unknown-base wildcard symbol. -/
def isUnknownBase (c : Char) : Bool := c == 'N'

/-- Modelled from the spec: the "same-base equality test" of the classifier
interface.  Two characters denote the same base exactly when they are the same
symbol (the development only consults it on base characters). -/
def isSameBase (c1 c2 : Char) : Bool := c1 == c2

/-- SUBSTITUTION_COST from Needleman-Wunsch-recmemo.h (line 19). -/
def SUBSTITUTION_COST : ℤ := 1

/-- SUBSTITUTION_UNKNOWN_COST from Needleman-Wunsch-recmemo.h (line 24). -/
def SUBSTITUTION_UNKNOWN_COST : ℤ := 1

/-- INSERTION_COST from Needleman-Wunsch-recmemo.h (line 29). -/
def INSERTION_COST : ℤ := 2

/-- The sequence ordering every engine performs (e.g. lines 110-123):
X is the sequence A if `lengthA >= lengthB`, otherwise B; Y the other one.
The first component is X (the longer sequence), the second Y (the shorter). -/
def orderSeqs (A B : List Char) : List Char × List Char :=
  if B.length ≤ A.length then (A, B) else (B, A)

/-- Pointwise update of an array-as-function (one C array store). -/
def upd (t : ℕ → ℤ) (k : ℕ) (v : ℤ) : ℕ → ℤ :=
  fun j => if j = k then v else t j

/-- The substitution cost computed by `EditDistance_NW_RecMemo` (lines 81-82):
`isUnknownBase(Xi) ? SUBSTITUTION_UNKNOWN_COST : (isSameBase(Xi,Yj) ? 0 :
SUBSTITUTION_COST)`. -/
def subM (x y : Char) : ℤ :=
  if isUnknownBase x then 1 else if isSameBase x y then 0 else 1

/-- The value computed by the memoized recursion `EditDistance_NW_RecMemo`
(lines 49-99), as a pure recurrence on the two remaining suffixes
`X[i..M)` and `Y[j..N)` (the memoization table caches exactly these values;
`recMemoF` below embeds the table itself and is proved to agree). -/
def phiM : List Char → List Char → ℤ
  | [], [] => 0
  | [], y :: ys => (if isBase y then 2 else 0) + phiM [] ys
  | x :: xs, [] => (if isBase x then 2 else 0) + phiM xs []
  | x :: xs, y :: ys =>
    if isBase x = false then phiM xs (y :: ys)
    else if isBase y = false then phiM (x :: xs) ys
    else
      let c1 := subM x y + phiM xs ys
      let c2 := 2 + phiM xs (y :: ys)
      let m1 := if c2 < c1 then c2 else c1
      let c3 := 2 + phiM (x :: xs) ys
      if c3 < m1 then c3 else m1

/-- The recurrence computed by the iterative row update shared by
`EditDistance_NW_iteratif`, `EditDistance_NW_cache_aware` and
`cache_oblivious_helper` (lines 200-222, 283-303, 385-405), again on the
remaining suffixes.  It differs from `phiM` in two source-visible ways: the
column (Y) skip test comes first, and the diagonal cost is
`(int)!isSameBase(...)` with no `isUnknownBase` test. -/
def phiIt : List Char → List Char → ℤ
  | [], [] => 0
  | [], y :: ys => (if isBase y then 2 else 0) + phiIt [] ys
  | x :: xs, [] => (if isBase x then 2 else 0) + phiIt xs []
  | x :: xs, y :: ys =>
    if isBase y = false then phiIt (x :: xs) ys
    else if isBase x = false then phiIt xs (y :: ys)
    else
      min (min (phiIt xs (y :: ys) + 2) (phiIt (x :: xs) ys + 2))
        ((if isSameBase x y then 0 else 1) + phiIt xs ys)

/-- The substitution cost in the words of spec section 4.1: "0 if the two are
the same known base, the unknown-substitution cost if either is the
unknown-base symbol, else the standard substitution cost". -/
def subCostSpec (x y : Char) : ℤ :=
  if isSameBase x y = true ∧ isUnknownBase x = false ∧ isUnknownBase y = false then 0
  else if isUnknownBase x = true ∨ isUnknownBase y = true then SUBSTITUTION_UNKNOWN_COST
  else SUBSTITUTION_COST

/-- The recurrence phi of spec section 4.1, written from the spec's words, on
the remaining suffixes of the ordered pair (X, Y): phi(M,N) = 0; a boundary
cell adds the insertion cost per valid base and 0 per non-base character;
a non-base character advances its index at zero cost; an interior cell is
`min(subCost + phi(i+1,j+1), INSERTION_COST + phi(i+1,j), INSERTION_COST +
phi(i,j+1))`. -/
def phiSpec : List Char → List Char → ℤ
  | [], [] => 0
  | [], y :: ys => (if isBase y then INSERTION_COST else 0) + phiSpec [] ys
  | x :: xs, [] => (if isBase x then INSERTION_COST else 0) + phiSpec xs []
  | x :: xs, y :: ys =>
    if isBase x = false then phiSpec xs (y :: ys)
    else if isBase y = false then phiSpec (x :: xs) ys
    else
      min (min (subCostSpec x y + phiSpec xs ys)
            (INSERTION_COST + phiSpec xs (y :: ys)))
        (INSERTION_COST + phiSpec (x :: xs) ys)

/-- Invariant of the memoization table: every in-range cell either still holds
the sentinel `NOT_YET_COMPUTED = -1` or holds the value of the recurrence at
its pair of suffixes. -/
def memoOK (X Y : List Char) (memo : ℕ → ℕ → ℤ) : Prop :=
  ∀ a b : ℕ, a ≤ X.length → b ≤ Y.length →
    memo a b = -1 ∨ memo a b = phiM (X.drop a) (Y.drop b)

/-- Two-dimensional update of the memoization table `memo[i][j] = v`. -/
def updM (m : ℕ → ℕ → ℤ) (i j : ℕ) (v : ℤ) : ℕ → ℕ → ℤ :=
  fun a b => if a = i ∧ b = j then v else m a b

/-- `EditDistance_NW_RecMemo` (lines 49-99) with its memoization table
(`NOT_YET_COMPUTED = -1`) and the characters passed to `ManageBaseError`
(lines 70, 75) made explicit.  Returns `(value, table, call log)`.  The C
recursion always terminates because `(M-i)+(N-j)` shrinks; here that quantity
bounds the fuel, and `EditDistance_NW_Rec` below supplies `M+N+1`. -/
def recMemoF (X Y : List Char) (M N : ℕ) :
    ℕ → ℕ → ℕ → (ℕ → ℕ → ℤ) → List Char → ℤ × (ℕ → ℕ → ℤ) × List Char
  | 0, _, _, memo, log => (0, memo, log)
  | fuel + 1, i, j, memo, log =>
    if memo i j = -1 then
      let Xi := X.getD i ' '
      let Yj := Y.getD j ' '
      let r :=
        if i = M then
          if j = N then ((0 : ℤ), memo, log)
          else
            let s := recMemoF X Y M N fuel i (j + 1) memo log
            ((if isBase Yj then 2 else 0) + s.1, s.2)
        else if j = N then
          let s := recMemoF X Y M N fuel (i + 1) j memo log
          ((if isBase Xi then 2 else 0) + s.1, s.2)
        else if isBase Xi = false then
          let s := recMemoF X Y M N fuel (i + 1) j memo (log ++ [Xi])
          (s.1, s.2)
        else if isBase Yj = false then
          let s := recMemoF X Y M N fuel i (j + 1) memo (log ++ [Yj])
          (s.1, s.2)
        else
          let s1 := recMemoF X Y M N fuel (i + 1) (j + 1) memo log
          let c1 := subM Xi Yj + s1.1
          let s2 := recMemoF X Y M N fuel (i + 1) j s1.2.1 s1.2.2
          let c2 := 2 + s2.1
          let m1 := if c2 < c1 then c2 else c1
          let s3 := recMemoF X Y M N fuel i (j + 1) s2.2.1 s2.2.2
          let c3 := 2 + s3.1
          (if c3 < m1 then c3 else m1, s3.2)
      (r.1, updM r.2.1 i j r.1, r.2.2)
    else (memo i j, memo, log)

/-- `EditDistance_NW_Rec` (lines 106-159): order the sequences, run the
memoized recursion from `(0,0)` on a table initialized to `NOT_YET_COMPUTED`. -/
def EditDistance_NW_Rec (A B : List Char) : ℤ :=
  let P := orderSeqs A B
  (recMemoF P.1 P.2 P.1.length P.2.length (P.1.length + P.2.length + 1)
      0 0 (fun _ _ => -1) []).1

/-- The characters the `EditDistance_NW_Rec` call passes to `ManageBaseError`
(its only side channel), in call order. -/
def EditDistance_NW_Rec_log (A B : List Char) : List Char :=
  let P := orderSeqs A B
  (recMemoF P.1 P.2 P.1.length P.2.length (P.1.length + P.2.length + 1)
      0 0 (fun _ _ => -1) []).2.2

/-- The characters `EditDistance_NW_iteratif` (lines 164-225) passes to
`ManageBaseError`: none — the iterative source contains no call to it. -/
def EditDistance_NW_iteratif_log (_A _B : List Char) : List Char := []

/-- The initialization loop `for (j = 1; j < N+1; j++) tab[j] = tab[j-1] +
(isBase(...) * 2)` (lines 190-193; also lines 261-264, 271-273, 376-379 with
the column-character function adjusted).  `k` counts the remaining
iterations, `j` is the loop variable. -/
def initLoop (ycol : ℕ → Char) : (ℕ → ℤ) → ℕ → ℕ → ℕ → ℤ
  | tab, _, 0 => tab
  | tab, j, k + 1 =>
    initLoop ycol (upd tab j (tab (j - 1) + (if isBase (ycol j) then 2 else 0))) (j + 1) k

/-- The shared inner column loop (lines 200-222, 283-303, 385-405): for each
column `j`, either skip a non-base Y character (`tab[j] = tab[j-1]`), skip a
non-base X character (row copied unchanged), or take the three-way minimum;
`prev` carries the pre-update value of the left neighbour (`prev_value`).
`k` counts the remaining iterations. -/
def nwInner (xi : Char) (ycol : ℕ → Char) : (ℕ → ℤ) → ℤ → ℕ → ℕ → ℕ → ℤ
  | tab, _, _, 0 => tab
  | tab, prev, j, k + 1 =>
    if isBase (ycol j) = false then
      nwInner xi ycol (upd tab j (tab (j - 1))) (tab j) (j + 1) k
    else if isBase xi = false then
      nwInner xi ycol tab (tab j) (j + 1) k
    else
      let m := (if tab j < tab (j - 1) then tab j else tab (j - 1)) + 2
      let delta := (if isSameBase xi (ycol j) then 0 else 1) + prev
      nwInner xi ycol (upd tab j (if m < delta then m else delta)) (tab j) (j + 1) k

/-- The outer row loop of `EditDistance_NW_iteratif` (lines 195-223):
`prev_value = tab[0]; tab[0] += 2*isBase(X[M-i]);` then the inner loop over
all `N` columns.  `rows` counts the remaining iterations, `i` the loop
variable. -/
def iterRows (xcol ycol : ℕ → Char) (N : ℕ) : (ℕ → ℤ) → ℕ → ℕ → ℕ → ℤ
  | tab, _, 0 => tab
  | tab, i, rows + 1 =>
    let prev := tab 0
    let tab1 := upd tab 0 (tab 0 + (if isBase (xcol i) then 2 else 0))
    iterRows xcol ycol N (nwInner (xcol i) ycol tab1 prev 1 N) (i + 1) rows

/-- `EditDistance_NW_iteratif` (lines 164-225).  `tab[0] = 0`; the C local
array is otherwise uninitialized, and every cell the code reads has been
written first, so the unwritten cells' placeholder value 0 is never
observed. -/
def EditDistance_NW_iteratif (A B : List Char) : ℤ :=
  let P := orderSeqs A B
  let M := P.1.length
  let N := P.2.length
  let xcol : ℕ → Char := fun i => P.1.getD (M - i) ' '
  let ycol : ℕ → Char := fun j => P.2.getD (N - j) ' '
  let tab0 := initLoop ycol (fun _ => 0) 1 N
  iterRows xcol ycol N tab0 1 M N

/-- The row loop shared by `EditDistance_NW_cache_aware` (lines 279-306) and
the base case of `cache_oblivious_helper` (lines 381-408): like `iterRows`
but seeded from and writing back to the boundary array `col`
(`tab[0] = col[i]` before the inner loop, `col[i] = tab[bn]` after). -/
def blockRows (xcol ycol : ℕ → Char) (bn : ℕ) :
    (ℕ → ℤ) → (ℕ → ℤ) → ℕ → ℕ → (ℕ → ℤ) × (ℕ → ℤ)
  | tab, col, _, 0 => (tab, col)
  | tab, col, i, rows + 1 =>
    let prev := tab 0
    let tab1 := upd tab 0 (col i)
    let tab2 := nwInner (xcol i) ycol tab1 prev 1 bn
    blockRows xcol ycol bn tab2 (upd col i (tab2 bn)) (i + 1) rows

/-- The `while (N > 0)` block loop of `EditDistance_NW_cache_aware`
(lines 266-308), with fuel: each iteration processes `bordure =
min(N, nb_case)` columns and decrements `N` by `nb_case`, so the loop never
terminates when `nb_case = 0` and `N ≥ 1`.  The running `N` is the C signed
`long`, hence `ℤ`. -/
def awareLoop (X Y : List Char) (M : ℕ) (nbc : ℕ) :
    ℕ → ℤ → (ℕ → ℤ) → (ℕ → ℤ) → Option ((ℕ → ℤ) × (ℕ → ℤ))
  | 0, _, _, _ => none
  | fuel + 1, Nst, tab, col =>
    if 0 < Nst then
      let bordure : ℤ := if Nst < (nbc : ℤ) then Nst else (nbc : ℤ)
      let bn := bordure.toNat
      let ycol : ℕ → Char := fun j => Y.getD (Nst - (j : ℤ)).toNat ' '
      let xcol : ℕ → Char := fun i => X.getD (M - i) ' '
      let tab1 := initLoop ycol (upd tab 0 (col 0)) 1 bn
      let col1 := upd col 0 (tab1 bn)
      let P := blockRows xcol ycol bn tab1 col1 1 M
      awareLoop X Y M nbc fuel (Nst - (nbc : ℤ)) P.1 P.2
    else some (tab, col)

/-- `EditDistance_NW_cache_aware` (lines 231-311).  The block width is
`nb_case = Z / (5 * sizeof(long))` with `sizeof(long) = 8` on the modelled
LP64 platform; the C divisor is a `size_t`, so the budget is modelled as a
nonnegative byte count.  `none` means the block loop did not terminate
(fuel `N+1` is proved sufficient whenever `nb_case ≥ 1`). -/
def EditDistance_NW_cache_aware (A B : List Char) (Z : ℕ) : Option ℤ :=
  let P := orderSeqs A B
  let M := P.1.length
  let N := P.2.length
  let nbc := Z / 40
  let col0 := initLoop (fun i => P.1.getD (M - i) ' ') (fun _ => 0) 1 M
  match awareLoop P.1 P.2 M nbc (N + 1) (N : ℤ) (fun _ => 0) col0 with
  | none => none
  | some (_, col) => some (col M)

/-- `cache_oblivious_helper` (lines 351-410), with fuel for the recursion.
The local array is `long tab[taille + 1]`; its one read whose index can leave
that range, `tab[fin_seq]` on line 380, is embedded with the bounds check
`fin_seq ≤ taille`.  Outer `none`: out of fuel (the C recursion diverges for
`seuil ≤ 0`); `some none`: the line-380 read is out of bounds; `some (some
col)`: the updated boundary array. -/
def coHelper (X Y : List Char) (M N : ℕ) (seuil : ℤ) :
    ℕ → (ℕ → ℤ) → ℕ → ℕ → Option (Option (ℕ → ℤ))
  | 0, _, _, _ => none
  | fuel + 1, col, debut, fin =>
    let taille := fin - debut
    if (taille : ℤ) > seuil then
      let milieu := taille / 2 + debut
      match coHelper X Y M N seuil fuel col debut milieu with
      | none => none
      | some none => some none
      | some (some col1) => coHelper X Y M N seuil fuel col1 milieu fin
    else
      let ycol : ℕ → Char := fun j => Y.getD (N - j - debut) ' '
      let xcol : ℕ → Char := fun i => X.getD (M - i) ' '
      let tab1 := initLoop ycol (upd (fun _ => 0) 0 (col 0)) 1 taille
      if fin ≤ taille then
        let col1 := upd col 0 (tab1 fin)
        let P := blockRows xcol ycol taille tab1 col1 1 M
        some (some P.2)
      else some none

/-- `EditDistance_NW_cache_oblivious` (lines 316-346): initialize the boundary
array `col` from X, run the helper on the full column range `[0, N)`.
Fuel `N+1` is proved sufficient whenever `seuil ≥ 1`. -/
def EditDistance_NW_cache_oblivious (A B : List Char) (seuil : ℤ) :
    Option (Option ℤ) :=
  let P := orderSeqs A B
  let M := P.1.length
  let N := P.2.length
  let col0 := initLoop (fun i => P.1.getD (M - i) ' ') (fun _ => 0) 1 M
  match coHelper P.1 P.2 M N seuil (N + 1) col0 0 N with
  | none => none
  | some none => some none
  | some (some col) => some (some (col M))

/-- Row-indexed view of the iterative recurrence: the value the row algorithms
hold at row `i`, column `j`.  Row `i` accounts for the last `i` characters of
X (the suffix `X[M-i..M)`, read via `X[M-i]` in the loops), column `j` for the
last `j` characters of Y. -/
def gridT (X Y : List Char) (i j : ℕ) : ℤ :=
  phiIt (X.drop (X.length - i)) (Y.drop (Y.length - j))

/-- Divergence of the cache-aware engine on given inputs: starting from the
engine's own initial state, the `while (N > 0)` block loop fails to return at
every fuel value. -/
def cacheAwareDiverges (A B : List Char) (Z : ℕ) : Prop :=
  ∀ fuel : ℕ,
    awareLoop (orderSeqs A B).1 (orderSeqs A B).2 (orderSeqs A B).1.length
      (Z / 40) fuel ((orderSeqs A B).2.length : ℤ) (fun _ => 0)
      (initLoop
        (fun i => (orderSeqs A B).1.getD ((orderSeqs A B).1.length - i) ' ')
        (fun _ => 0) 1 (orderSeqs A B).1.length) = none


/-! ### Elementary facts about the cost functions and the recurrences -/

lemma ite_lt_eq_min (a b : ℤ) : (if a < b then a else b) = min a b := by
  split <;> omega

lemma isSameBase_comm (x y : Char) : isSameBase x y = isSameBase y x := by
  simp only [isSameBase]
  by_cases h : x = y <;> simp [h, beq_iff_eq]
  exact fun hyx => h hyx.symm

lemma isSameBase_refl (x : Char) : isSameBase x x = true := by
  simp [isSameBase]

lemma subM_comm (x y : Char) : subM x y = subM y x := by
  rcases eq_or_ne x 'N' with hx | hx <;> rcases eq_or_ne y 'N' with hy | hy
  · subst hx; subst hy; rfl
  · subst hx
    simp [subM, isUnknownBase, isSameBase, beq_iff_eq, hy]
  · subst hy
    simp [subM, isUnknownBase, isSameBase, beq_iff_eq, hx]
  · by_cases hxy : x = y
    · subst hxy; rfl
    · have hyx : ¬ y = x := fun h => hxy h.symm
      simp [subM, isUnknownBase, isSameBase, beq_iff_eq, hx, hy, hxy, hyx]

/-- When the two characters are not both the unknown base, the memoized
engine's substitution cost collapses to the bare same-base test used by the
iterative engines. -/
lemma subM_eq_same (x y : Char) (h : ¬(isUnknownBase x = true ∧ isUnknownBase y = true)) :
    subM x y = (if isSameBase x y then 0 else 1) := by
  by_cases hx : x = 'N'
  · subst hx
    have hy : y ≠ 'N' := by
      intro hy; exact h ⟨by simp [isUnknownBase], by simp [isUnknownBase, hy]⟩
    have hs : isSameBase 'N' y = false := by
      simp [isSameBase, beq_iff_eq]
      intro hc; exact hy hc.symm
    simp [subM, isUnknownBase, hs]
  · simp [subM, isUnknownBase, beq_iff_eq, hx]

/-- Unfolding lemma: interior cell of `phiM` with two base characters,
rewritten from the C `if` cascade to a `min` of the three candidates. -/
lemma phiM_cc (x y : Char) (xs ys : List Char)
    (hx : isBase x = true) (hy : isBase y = true) :
    phiM (x :: xs) (y :: ys) =
      min (min (phiM xs (y :: ys) + 2) (phiM (x :: xs) ys + 2))
        (subM x y + phiM xs ys) := by
  rw [phiM]
  simp only [hx, hy, Bool.true_eq_false, if_false, ite_lt_eq_min]
  omega

lemma phiM_skipx (x : Char) (xs ys : List Char) (hx : isBase x = false) :
    phiM (x :: xs) ys = phiM xs ys := by
  cases ys with
  | nil => rw [phiM]; simp [hx]
  | cons y ys => rw [phiM]; simp [hx]

lemma phiIt_skipy (y : Char) (xs ys : List Char) (hy : isBase y = false) :
    phiIt xs (y :: ys) = phiIt xs ys := by
  cases xs with
  | nil => rw [phiIt]; simp [hy]
  | cons x xs => rw [phiIt]; simp [hy]

/-- Non-base characters at the head of Y are also free for `phiM`, even
though the code tests the X character first. -/
lemma phiM_skipy (y : Char) (hy : isBase y = false) :
    ∀ xs ys : List Char, phiM xs (y :: ys) = phiM xs ys := by
  intro xs
  induction xs with
  | nil => intro ys; rw [phiM]; simp [hy]
  | cons x xs ih =>
    intro ys
    by_cases hx : isBase x
    · rw [phiM]
      simp only [hx, Bool.true_eq_false, if_false, hy, if_true]
    · rw [phiM_skipx x xs _ (by simp [hx]), phiM_skipx x xs _ (by simp [hx])]
      exact ih ys

/-- Non-base characters at the head of X are also free for `phiIt`, even
though the row update tests the Y character first. -/
lemma phiIt_skipx (x : Char) (hx : isBase x = false) :
    ∀ ys xs : List Char, phiIt (x :: xs) ys = phiIt xs ys := by
  intro ys
  induction ys with
  | nil => intro xs; rw [phiIt]; simp [hx]
  | cons y ys ih =>
    intro xs
    by_cases hy : isBase y
    · rw [phiIt]
      simp only [hy, Bool.true_eq_false, if_false, hx, if_true]
    · rw [phiIt_skipy y _ ys (by simp [hy]), phiIt_skipy y _ ys (by simp [hy])]
      exact ih xs

lemma phiM_nn : phiM [] [] = 0 := by rw [phiM]

lemma phiM_nc (y : Char) (ys : List Char) :
    phiM [] (y :: ys) = (if isBase y then 2 else 0) + phiM [] ys := by rw [phiM]

lemma phiM_cn (x : Char) (xs : List Char) :
    phiM (x :: xs) [] = (if isBase x then 2 else 0) + phiM xs [] := by rw [phiM]

lemma phiM_ccx (x y : Char) (xs ys : List Char) (hx : isBase x = false) :
    phiM (x :: xs) (y :: ys) = phiM xs (y :: ys) := by
  rw [phiM]; simp [hx]

lemma phiM_ccy (x y : Char) (xs ys : List Char)
    (hx : isBase x = true) (hy : isBase y = false) :
    phiM (x :: xs) (y :: ys) = phiM (x :: xs) ys := by
  rw [phiM]; simp [hx, hy]

lemma phiIt_nn : phiIt [] [] = 0 := by rw [phiIt]

lemma phiIt_nc (y : Char) (ys : List Char) :
    phiIt [] (y :: ys) = (if isBase y then 2 else 0) + phiIt [] ys := by rw [phiIt]

lemma phiIt_cn (x : Char) (xs : List Char) :
    phiIt (x :: xs) [] = (if isBase x then 2 else 0) + phiIt xs [] := by rw [phiIt]

lemma phiIt_ccy (x y : Char) (xs ys : List Char) (hy : isBase y = false) :
    phiIt (x :: xs) (y :: ys) = phiIt (x :: xs) ys := by
  rw [phiIt]; simp [hy]

lemma phiIt_ccx (x y : Char) (xs ys : List Char)
    (hy : isBase y = true) (hx : isBase x = false) :
    phiIt (x :: xs) (y :: ys) = phiIt xs (y :: ys) := by
  rw [phiIt]; simp [hy, hx]

lemma phiIt_ccb (x y : Char) (xs ys : List Char)
    (hy : isBase y = true) (hx : isBase x = true) :
    phiIt (x :: xs) (y :: ys) =
      min (min (phiIt xs (y :: ys) + 2) (phiIt (x :: xs) ys + 2))
        ((if isSameBase x y then 0 else 1) + phiIt xs ys) := by
  rw [phiIt]; simp [hy, hx]

lemma phiM_nonneg : ∀ xs ys : List Char, 0 ≤ phiM xs ys := by
  intro xs ys
  induction xs, ys using phiM.induct with
  | case1 => simp [phiM]
  | case2 y ys ih => rw [phiM]; split <;> omega
  | case3 x xs ih => rw [phiM]; split <;> omega
  | case4 x xs y ys hx ih => rw [phiM]; simp [hx]; omega
  | case5 x xs y ys hx hy ih => rw [phiM]; simp [hx, hy]; omega
  | case6 x xs y ys hx hy hlt ih1 ih2 ih3 =>
    have hsub : 0 ≤ subM x y := by
      simp only [subM]
      split
      · omega
      · split <;> omega
    rw [phiM_cc x y xs ys (by simpa using hx) (by simpa using hy)]
    omega
  | case7 x xs y ys hx hy hlt ih1 ih2 ih3 =>
    have hsub : 0 ≤ subM x y := by
      simp only [subM]
      split
      · omega
      · split <;> omega
    rw [phiM_cc x y xs ys (by simpa using hx) (by simpa using hy)]
    omega

lemma phiIt_nonneg : ∀ xs ys : List Char, 0 ≤ phiIt xs ys := by
  intro xs ys
  induction xs, ys using phiIt.induct with
  | case1 => simp [phiIt]
  | case2 y ys ih => rw [phiIt]; split <;> omega
  | case3 x xs ih => rw [phiIt]; split <;> omega
  | case4 x xs y ys hy ih => rw [phiIt]; simp [hy]; omega
  | case5 x xs y ys hy hx ih => rw [phiIt]; simp [hy, hx]; omega
  | case6 x xs y ys hy hx ih1 ih2 ih3 =>
    rw [phiIt]; simp [hy, hx]; split <;> omega

/-! ### Symmetry, self-distance and agreement of the two code recurrences -/

/-- Swapping the two suffixes leaves `phiIt` unchanged. -/
lemma phiIt_comm (xs ys : List Char) : phiIt xs ys = phiIt ys xs := by
  have main : ∀ (n : ℕ) (xs ys : List Char), xs.length + ys.length ≤ n →
      phiIt xs ys = phiIt ys xs := by
    intro n
    induction n with
    | zero =>
      intro xs ys h
      cases xs with
      | nil =>
        cases ys with
        | nil => rfl
        | cons y ys => simp at h
      | cons x xs => simp at h
    | succ n IH =>
      intro xs ys h
      cases xs with
      | nil =>
        cases ys with
        | nil => rfl
        | cons y ys =>
          rw [phiIt_nc, phiIt_cn, IH [] ys (by simp at h ⊢; omega)]
      | cons x xs =>
        cases ys with
        | nil => rw [phiIt_cn, phiIt_nc, IH xs [] (by simp at h ⊢; omega)]
        | cons y ys =>
          have hxy : xs.length + (y :: ys).length ≤ n := by simp at h ⊢; omega
          have hyx : (x :: xs).length + ys.length ≤ n := by simp at h ⊢; omega
          have hxy2 : xs.length + ys.length ≤ n := by simp at h ⊢; omega
          by_cases hy : isBase y <;> by_cases hx : isBase x
          · rw [phiIt_ccb x y xs ys (by simp [hy]) (by simp [hx]),
              phiIt_ccb y x ys xs (by simp [hx]) (by simp [hy]),
              isSameBase_comm y x,
              IH xs (y :: ys) hxy, IH (x :: xs) ys hyx, IH xs ys hxy2]
            omega
          · rw [phiIt_ccx x y xs ys (by simp [hy]) (by simp [hx]),
              phiIt_ccy y x ys xs (by simp [hx]),
              IH xs (y :: ys) hxy]
          · rw [phiIt_ccy x y xs ys (by simp [hy]),
              phiIt_ccx y x ys xs (by simp [hx]) (by simp [hy]),
              IH (x :: xs) ys hyx]
          · rw [phiIt_ccy x y xs ys (by simp [hy]),
              phiIt_ccy y x ys xs (by simp [hx]),
              phiIt_skipx x (by simp [hx]) ys xs,
              phiIt_skipx y (by simp [hy]) xs ys,
              IH xs ys hxy2]
  exact main (xs.length + ys.length) xs ys le_rfl

/-- Swapping the two suffixes leaves `phiM` unchanged. -/
lemma phiM_comm (xs ys : List Char) : phiM xs ys = phiM ys xs := by
  have main : ∀ (n : ℕ) (xs ys : List Char), xs.length + ys.length ≤ n →
      phiM xs ys = phiM ys xs := by
    intro n
    induction n with
    | zero =>
      intro xs ys h
      cases xs with
      | nil =>
        cases ys with
        | nil => rfl
        | cons y ys => simp at h
      | cons x xs => simp at h
    | succ n IH =>
      intro xs ys h
      cases xs with
      | nil =>
        cases ys with
        | nil => rfl
        | cons y ys =>
          rw [phiM_nc, phiM_cn, IH [] ys (by simp at h ⊢; omega)]
      | cons x xs =>
        cases ys with
        | nil => rw [phiM_cn, phiM_nc, IH xs [] (by simp at h ⊢; omega)]
        | cons y ys =>
          have hxy : xs.length + (y :: ys).length ≤ n := by simp at h ⊢; omega
          have hyx : (x :: xs).length + ys.length ≤ n := by simp at h ⊢; omega
          have hxy2 : xs.length + ys.length ≤ n := by simp at h ⊢; omega
          by_cases hx : isBase x <;> by_cases hy : isBase y
          · rw [phiM_cc x y xs ys (by simp [hx]) (by simp [hy]),
              phiM_cc y x ys xs (by simp [hy]) (by simp [hx]),
              subM_comm y x,
              IH xs (y :: ys) hxy, IH (x :: xs) ys hyx, IH xs ys hxy2]
            omega
          · rw [phiM_ccy x y xs ys (by simp [hx]) (by simp [hy]),
              phiM_ccx y x ys xs (by simp [hy]),
              IH (x :: xs) ys hyx]
          · rw [phiM_ccx x y xs ys (by simp [hx]),
              phiM_ccy y x ys xs (by simp [hy]) (by simp [hx]),
              IH xs (y :: ys) hxy]
          · rw [phiM_ccx x y xs ys (by simp [hx]),
              phiM_ccx y x ys xs (by simp [hy]),
              phiM_skipy y (by simp [hy]) xs ys,
              phiM_skipy x (by simp [hx]) ys xs,
              IH xs ys hxy2]
  exact main (xs.length + ys.length) xs ys le_rfl

/-- The iterative recurrence gives distance 0 on any sequence against itself,
unknown bases and non-base characters included. -/
lemma phiIt_self : ∀ l : List Char, phiIt l l = 0 := by
  intro l
  induction l with
  | nil => exact phiIt_nn
  | cons x l ih =>
    by_cases hx : isBase x
    · rw [phiIt_ccb x x l l (by simp [hx]) (by simp [hx])]
      have n1 := phiIt_nonneg l (x :: l)
      have n2 := phiIt_nonneg (x :: l) l
      simp only [isSameBase_refl, if_true]
      omega
    · rw [phiIt_ccy x x l l (by simp [hx]), phiIt_skipx x (by simp [hx]) l l]
      exact ih

/-- The memoized recurrence gives distance 0 on a sequence against itself
provided no character is the unknown base (an unknown base against itself
costs `SUBSTITUTION_UNKNOWN_COST`, see the counterexample for C3). -/
lemma phiM_self : ∀ l : List Char, (∀ c ∈ l, isUnknownBase c = false) →
    phiM l l = 0 := by
  intro l
  induction l with
  | nil => intro _; exact phiM_nn
  | cons x l ih =>
    intro h
    have hx0 : isUnknownBase x = false := h x (by simp)
    have htail : ∀ c ∈ l, isUnknownBase c = false := fun c hc => h c (by simp [hc])
    by_cases hx : isBase x
    · have hsub : subM x x = 0 := by simp [subM, hx0, isSameBase_refl]
      rw [phiM_cc x x l l (by simp [hx]) (by simp [hx]), hsub]
      have n1 := phiM_nonneg l (x :: l)
      have n2 := phiM_nonneg (x :: l) l
      have h0 := ih htail
      omega
    · rw [phiM_ccx x x l l (by simp [hx]), phiM_skipy x (by simp [hx]) l l]
      exact ih htail

/-- As long as the two suffixes do not align two unknown bases — guaranteed
when at least one of them contains no unknown base — the memoized and the
iterative recurrences agree. -/
lemma phiM_eq_phiIt : ∀ xs ys : List Char,
    ((∀ c ∈ xs, isUnknownBase c = false) ∨ (∀ c ∈ ys, isUnknownBase c = false)) →
    phiM xs ys = phiIt xs ys := by
  have main : ∀ (n : ℕ) (xs ys : List Char), xs.length + ys.length ≤ n →
      ((∀ c ∈ xs, isUnknownBase c = false) ∨ (∀ c ∈ ys, isUnknownBase c = false)) →
      phiM xs ys = phiIt xs ys := by
    intro n
    induction n with
    | zero =>
      intro xs ys h hcond
      cases xs with
      | nil =>
        cases ys with
        | nil => rw [phiM_nn, phiIt_nn]
        | cons y ys => simp at h
      | cons x xs => simp at h
    | succ n IH =>
      intro xs ys h hcond
      cases xs with
      | nil =>
        cases ys with
        | nil => rw [phiM_nn, phiIt_nn]
        | cons y ys =>
          rw [phiM_nc, phiIt_nc,
            IH [] ys (by simp at h ⊢; omega) (Or.inl (by simp))]
      | cons x xs =>
        cases ys with
        | nil =>
          rw [phiM_cn, phiIt_cn,
            IH xs [] (by simp at h ⊢; omega) (Or.inr (by simp))]
        | cons y ys =>
          have hlen1 : xs.length + (y :: ys).length ≤ n := by simp at h ⊢; omega
          have hlen2 : (x :: xs).length + ys.length ≤ n := by simp at h ⊢; omega
          have hlen3 : xs.length + ys.length ≤ n := by simp at h ⊢; omega
          have hcond1 : (∀ c ∈ xs, isUnknownBase c = false) ∨
              (∀ c ∈ y :: ys, isUnknownBase c = false) := by
            rcases hcond with hl | hr
            · exact Or.inl fun c hc => hl c (by simp [hc])
            · exact Or.inr hr
          have hcond2 : (∀ c ∈ x :: xs, isUnknownBase c = false) ∨
              (∀ c ∈ ys, isUnknownBase c = false) := by
            rcases hcond with hl | hr
            · exact Or.inl hl
            · exact Or.inr fun c hc => hr c (by simp [hc])
          have hcond3 : (∀ c ∈ xs, isUnknownBase c = false) ∨
              (∀ c ∈ ys, isUnknownBase c = false) := by
            rcases hcond with hl | hr
            · exact Or.inl fun c hc => hl c (by simp [hc])
            · exact Or.inr fun c hc => hr c (by simp [hc])
          by_cases hx : isBase x <;> by_cases hy : isBase y
          · have hnb : ¬(isUnknownBase x = true ∧ isUnknownBase y = true) := by
              rcases hcond with hl | hr
              · intro hp
                have := hl x (by simp)
                rw [this] at hp
                exact absurd hp.1 (by simp)
              · intro hp
                have := hr y (by simp)
                rw [this] at hp
                exact absurd hp.2 (by simp)
            rw [phiM_cc x y xs ys (by simp [hx]) (by simp [hy]),
              phiIt_ccb x y xs ys (by simp [hy]) (by simp [hx]),
              subM_eq_same x y hnb,
              IH xs (y :: ys) hlen1 hcond1, IH (x :: xs) ys hlen2 hcond2,
              IH xs ys hlen3 hcond3]
          · rw [phiM_ccy x y xs ys (by simp [hx]) (by simp [hy]),
              phiIt_ccy x y xs ys (by simp [hy]),
              IH (x :: xs) ys hlen2 hcond2]
          · rw [phiM_ccx x y xs ys (by simp [hx]),
              phiIt_ccx x y xs ys (by simp [hy]) (by simp [hx]),
              IH xs (y :: ys) hlen1 hcond1]
          · rw [phiM_ccx x y xs ys (by simp [hx]),
              phiM_skipy y (by simp [hy]) xs ys,
              phiIt_ccy x y xs ys (by simp [hy]),
              phiIt_skipx x (by simp [hx]) ys xs,
              IH xs ys hlen3 hcond3]
  exact fun xs ys => main (xs.length + ys.length) xs ys le_rfl

/-- Deleting (equivalently, inserting) a non-base character anywhere in the
second suffix leaves `phiM` unchanged. -/
lemma phiM_insert_y (c : Char) (hc : isBase c = false) :
    ∀ (xs l1 l2 : List Char), phiM xs (l1 ++ c :: l2) = phiM xs (l1 ++ l2) := by
  have main : ∀ (n : ℕ) (xs l1 : List Char), xs.length + l1.length ≤ n →
      ∀ l2, phiM xs (l1 ++ c :: l2) = phiM xs (l1 ++ l2) := by
    intro n
    induction n with
    | zero =>
      intro xs l1 h l2
      cases xs with
      | nil =>
        cases l1 with
        | nil => simpa using phiM_skipy c hc [] l2
        | cons a l1 => simp at h
      | cons x xs => simp at h
    | succ n IH =>
      intro xs l1 h l2
      cases l1 with
      | nil => simpa using phiM_skipy c hc xs l2
      | cons y l1 =>
        cases xs with
        | nil =>
          have e1 := IH [] l1 (by simp at h ⊢; omega) l2
          simp only [List.cons_append, phiM_nc, e1]
        | cons x xs =>
          have e1 := IH xs (y :: l1) (by simp at h ⊢; omega) l2
          have e2 := IH (x :: xs) l1 (by simp at h ⊢; omega) l2
          have e3 := IH xs l1 (by simp at h ⊢; omega) l2
          simp only [List.cons_append] at e1 e2 e3 ⊢
          by_cases hx : isBase x
          · by_cases hy : isBase y
            · rw [phiM_cc x y xs (l1 ++ c :: l2) (by simp [hx]) (by simp [hy]),
                phiM_cc x y xs (l1 ++ l2) (by simp [hx]) (by simp [hy]),
                e1, e2, e3]
            · rw [phiM_ccy x y xs (l1 ++ c :: l2) (by simp [hx]) (by simp [hy]),
                phiM_ccy x y xs (l1 ++ l2) (by simp [hx]) (by simp [hy]),
                e2]
          · rw [phiM_ccx x y xs (l1 ++ c :: l2) (by simp [hx]),
              phiM_ccx x y xs (l1 ++ l2) (by simp [hx]),
              e1]
  exact fun xs l1 l2 => main (xs.length + l1.length) xs l1 le_rfl l2

/-- Deleting (equivalently, inserting) a non-base character anywhere in the
second suffix leaves `phiIt` unchanged. -/
lemma phiIt_insert_y (c : Char) (hc : isBase c = false) :
    ∀ (xs l1 l2 : List Char), phiIt xs (l1 ++ c :: l2) = phiIt xs (l1 ++ l2) := by
  have main : ∀ (n : ℕ) (xs l1 : List Char), xs.length + l1.length ≤ n →
      ∀ l2, phiIt xs (l1 ++ c :: l2) = phiIt xs (l1 ++ l2) := by
    intro n
    induction n with
    | zero =>
      intro xs l1 h l2
      cases xs with
      | nil =>
        cases l1 with
        | nil => simpa using phiIt_skipy c [] l2 hc
        | cons a l1 => simp at h
      | cons x xs => simp at h
    | succ n IH =>
      intro xs l1 h l2
      cases l1 with
      | nil => simpa using phiIt_skipy c xs l2 hc
      | cons y l1 =>
        cases xs with
        | nil =>
          have e1 := IH [] l1 (by simp at h ⊢; omega) l2
          simp only [List.cons_append, phiIt_nc, e1]
        | cons x xs =>
          have e1 := IH xs (y :: l1) (by simp at h ⊢; omega) l2
          have e2 := IH (x :: xs) l1 (by simp at h ⊢; omega) l2
          have e3 := IH xs l1 (by simp at h ⊢; omega) l2
          simp only [List.cons_append] at e1 e2 e3 ⊢
          by_cases hy : isBase y
          · by_cases hx : isBase x
            · rw [phiIt_ccb x y xs (l1 ++ c :: l2) (by simp [hy]) (by simp [hx]),
                phiIt_ccb x y xs (l1 ++ l2) (by simp [hy]) (by simp [hx]),
                e1, e2, e3]
            · rw [phiIt_ccx x y xs (l1 ++ c :: l2) (by simp [hy]) (by simp [hx]),
                phiIt_ccx x y xs (l1 ++ l2) (by simp [hy]) (by simp [hx]),
                e1]
          · rw [phiIt_ccy x y xs (l1 ++ c :: l2) (by simp [hy]),
              phiIt_ccy x y xs (l1 ++ l2) (by simp [hy]),
              e2]
  exact fun xs l1 l2 => main (xs.length + l1.length) xs l1 le_rfl l2

lemma phiM_insert_x (c : Char) (hc : isBase c = false) (l1 l2 ys : List Char) :
    phiM (l1 ++ c :: l2) ys = phiM (l1 ++ l2) ys := by
  rw [phiM_comm, phiM_insert_y c hc ys l1 l2, phiM_comm]

lemma phiIt_insert_x (c : Char) (hc : isBase c = false) (l1 l2 ys : List Char) :
    phiIt (l1 ++ c :: l2) ys = phiIt (l1 ++ l2) ys := by
  rw [phiIt_comm, phiIt_insert_y c hc ys l1 l2, phiIt_comm]

/-! ### The code recurrence of the memoized engine matches the spec recurrence -/

lemma phiSpec_nn : phiSpec [] [] = 0 := by rw [phiSpec]

lemma phiSpec_nc (y : Char) (ys : List Char) :
    phiSpec [] (y :: ys) = (if isBase y then 2 else 0) + phiSpec [] ys := by
  rw [phiSpec]; rfl

lemma phiSpec_cn (x : Char) (xs : List Char) :
    phiSpec (x :: xs) [] = (if isBase x then 2 else 0) + phiSpec xs [] := by
  rw [phiSpec]; rfl

lemma phiSpec_ccx (x y : Char) (xs ys : List Char) (hx : isBase x = false) :
    phiSpec (x :: xs) (y :: ys) = phiSpec xs (y :: ys) := by
  rw [phiSpec]; simp [hx]

lemma phiSpec_ccy (x y : Char) (xs ys : List Char)
    (hx : isBase x = true) (hy : isBase y = false) :
    phiSpec (x :: xs) (y :: ys) = phiSpec (x :: xs) ys := by
  rw [phiSpec]; simp [hx, hy]

lemma phiSpec_cc (x y : Char) (xs ys : List Char)
    (hx : isBase x = true) (hy : isBase y = true) :
    phiSpec (x :: xs) (y :: ys) =
      min (min (subCostSpec x y + phiSpec xs ys) (2 + phiSpec xs (y :: ys)))
        (2 + phiSpec (x :: xs) ys) := by
  rw [phiSpec]; simp [hx, hy, INSERTION_COST]

/-- The C substitution cost of the memoized engine coincides with the spec's
`subCost` on every pair of characters (both constants being 1, the different
case analyses give the same value). -/
lemma subM_eq_subCostSpec (x y : Char) : subM x y = subCostSpec x y := by
  rcases eq_or_ne x 'N' with hx | hx
  · subst hx
    simp [subM, subCostSpec, isUnknownBase, SUBSTITUTION_UNKNOWN_COST]
  · rcases eq_or_ne y 'N' with hy | hy
    · subst hy
      have hs : isSameBase x 'N' = false := by
        simp [isSameBase, beq_iff_eq, hx]
      simp [subM, subCostSpec, isUnknownBase, beq_iff_eq, hx, hs,
        SUBSTITUTION_UNKNOWN_COST]
    · by_cases hxy : x = y
      · subst hxy
        simp [subM, subCostSpec, isUnknownBase, beq_iff_eq, hx, isSameBase_refl]
      · have hs : isSameBase x y = false := by
          simp [isSameBase, beq_iff_eq, hxy]
        simp [subM, subCostSpec, isUnknownBase, beq_iff_eq, hx, hy, hs,
          SUBSTITUTION_COST]

/-- The memoized code recurrence equals the spec recurrence of section 4.1 on
all inputs. -/
lemma phiM_eq_phiSpec : ∀ xs ys : List Char, phiM xs ys = phiSpec xs ys := by
  have main : ∀ (n : ℕ) (xs ys : List Char), xs.length + ys.length ≤ n →
      phiM xs ys = phiSpec xs ys := by
    intro n
    induction n with
    | zero =>
      intro xs ys h
      cases xs with
      | nil =>
        cases ys with
        | nil => rw [phiM_nn, phiSpec_nn]
        | cons y ys => simp at h
      | cons x xs => simp at h
    | succ n IH =>
      intro xs ys h
      cases xs with
      | nil =>
        cases ys with
        | nil => rw [phiM_nn, phiSpec_nn]
        | cons y ys => rw [phiM_nc, phiSpec_nc, IH [] ys (by simp at h ⊢; omega)]
      | cons x xs =>
        cases ys with
        | nil => rw [phiM_cn, phiSpec_cn, IH xs [] (by simp at h ⊢; omega)]
        | cons y ys =>
          have hlen1 : xs.length + (y :: ys).length ≤ n := by simp at h ⊢; omega
          have hlen2 : (x :: xs).length + ys.length ≤ n := by simp at h ⊢; omega
          have hlen3 : xs.length + ys.length ≤ n := by simp at h ⊢; omega
          by_cases hx : isBase x
          · by_cases hy : isBase y
            · rw [phiM_cc x y xs ys (by simp [hx]) (by simp [hy]),
                phiSpec_cc x y xs ys (by simp [hx]) (by simp [hy]),
                subM_eq_subCostSpec x y,
                IH xs (y :: ys) hlen1, IH (x :: xs) ys hlen2, IH xs ys hlen3]
              omega
            · rw [phiM_ccy x y xs ys (by simp [hx]) (by simp [hy]),
                phiSpec_ccy x y xs ys (by simp [hx]) (by simp [hy]),
                IH (x :: xs) ys hlen2]
          · rw [phiM_ccx x y xs ys (by simp [hx]),
              phiSpec_ccx x y xs ys (by simp [hx]),
              IH xs (y :: ys) hlen1]
  exact fun xs ys => main (xs.length + ys.length) xs ys le_rfl

/-! ### Correctness of the memoized implementation `recMemoF` -/

lemma recMemoF_hit (X Y : List Char) (M N fuel i j : ℕ) (memo : ℕ → ℕ → ℤ)
    (log : List Char) (hmemo : ¬ memo i j = -1) :
    recMemoF X Y M N (fuel + 1) i j memo log = (memo i j, memo, log) := by
  simp only [recMemoF]
  rw [if_neg hmemo]

lemma recMemoF_MN (X Y : List Char) (M N fuel i j : ℕ) (memo : ℕ → ℕ → ℤ)
    (log : List Char) (hmemo : memo i j = -1) (hi : i = M) (hj : j = N) :
    recMemoF X Y M N (fuel + 1) i j memo log = (0, updM memo i j 0, log) := by
  simp only [recMemoF]
  rw [if_pos hmemo, if_pos hi, if_pos hj]

lemma recMemoF_Mj (X Y : List Char) (M N fuel i j : ℕ) (memo : ℕ → ℕ → ℤ)
    (log : List Char) (hmemo : memo i j = -1) (hi : i = M) (hj : ¬ j = N) :
    recMemoF X Y M N (fuel + 1) i j memo log =
      ((if isBase (Y.getD j ' ') then 2 else 0) +
          (recMemoF X Y M N fuel i (j + 1) memo log).1,
        updM (recMemoF X Y M N fuel i (j + 1) memo log).2.1 i j
          ((if isBase (Y.getD j ' ') then 2 else 0) +
            (recMemoF X Y M N fuel i (j + 1) memo log).1),
        (recMemoF X Y M N fuel i (j + 1) memo log).2.2) := by
  simp only [recMemoF]
  rw [if_pos hmemo, if_pos hi, if_neg hj]

lemma recMemoF_iN (X Y : List Char) (M N fuel i j : ℕ) (memo : ℕ → ℕ → ℤ)
    (log : List Char) (hmemo : memo i j = -1) (hi : ¬ i = M) (hj : j = N) :
    recMemoF X Y M N (fuel + 1) i j memo log =
      ((if isBase (X.getD i ' ') then 2 else 0) +
          (recMemoF X Y M N fuel (i + 1) j memo log).1,
        updM (recMemoF X Y M N fuel (i + 1) j memo log).2.1 i j
          ((if isBase (X.getD i ' ') then 2 else 0) +
            (recMemoF X Y M N fuel (i + 1) j memo log).1),
        (recMemoF X Y M N fuel (i + 1) j memo log).2.2) := by
  simp only [recMemoF]
  rw [if_pos hmemo, if_neg hi, if_pos hj]

lemma recMemoF_skipX (X Y : List Char) (M N fuel i j : ℕ) (memo : ℕ → ℕ → ℤ)
    (log : List Char) (hmemo : memo i j = -1) (hi : ¬ i = M) (hj : ¬ j = N)
    (hbx : isBase (X.getD i ' ') = false) :
    recMemoF X Y M N (fuel + 1) i j memo log =
      ((recMemoF X Y M N fuel (i + 1) j memo (log ++ [X.getD i ' '])).1,
        updM (recMemoF X Y M N fuel (i + 1) j memo (log ++ [X.getD i ' '])).2.1 i j
          (recMemoF X Y M N fuel (i + 1) j memo (log ++ [X.getD i ' '])).1,
        (recMemoF X Y M N fuel (i + 1) j memo (log ++ [X.getD i ' '])).2.2) := by
  simp only [recMemoF]
  rw [if_pos hmemo, if_neg hi, if_neg hj, if_pos hbx]

lemma recMemoF_skipY (X Y : List Char) (M N fuel i j : ℕ) (memo : ℕ → ℕ → ℤ)
    (log : List Char) (hmemo : memo i j = -1) (hi : ¬ i = M) (hj : ¬ j = N)
    (hbx : isBase (X.getD i ' ') = true) (hby : isBase (Y.getD j ' ') = false) :
    recMemoF X Y M N (fuel + 1) i j memo log =
      ((recMemoF X Y M N fuel i (j + 1) memo (log ++ [Y.getD j ' '])).1,
        updM (recMemoF X Y M N fuel i (j + 1) memo (log ++ [Y.getD j ' '])).2.1 i j
          (recMemoF X Y M N fuel i (j + 1) memo (log ++ [Y.getD j ' '])).1,
        (recMemoF X Y M N fuel i (j + 1) memo (log ++ [Y.getD j ' '])).2.2) := by
  simp only [recMemoF]
  rw [if_pos hmemo, if_neg hi, if_neg hj, if_neg (by rw [hbx]; simp), if_pos hby]

lemma recMemoF_int (X Y : List Char) (M N fuel i j : ℕ) (memo : ℕ → ℕ → ℤ)
    (log : List Char) (s1 s2 s3 : ℤ × (ℕ → ℕ → ℤ) × List Char)
    (hmemo : memo i j = -1) (hi : ¬ i = M) (hj : ¬ j = N)
    (hbx : isBase (X.getD i ' ') = true) (hby : isBase (Y.getD j ' ') = true)
    (hs1 : s1 = recMemoF X Y M N fuel (i + 1) (j + 1) memo log)
    (hs2 : s2 = recMemoF X Y M N fuel (i + 1) j s1.2.1 s1.2.2)
    (hs3 : s3 = recMemoF X Y M N fuel i (j + 1) s2.2.1 s2.2.2) :
    recMemoF X Y M N (fuel + 1) i j memo log =
      ((if 2 + s3.1 <
            if 2 + s2.1 < subM (X.getD i ' ') (Y.getD j ' ') + s1.1 then 2 + s2.1
            else subM (X.getD i ' ') (Y.getD j ' ') + s1.1 then 2 + s3.1
          else
            if 2 + s2.1 < subM (X.getD i ' ') (Y.getD j ' ') + s1.1 then 2 + s2.1
            else subM (X.getD i ' ') (Y.getD j ' ') + s1.1),
        updM s3.2.1 i j
          (if 2 + s3.1 <
              if 2 + s2.1 < subM (X.getD i ' ') (Y.getD j ' ') + s1.1 then 2 + s2.1
              else subM (X.getD i ' ') (Y.getD j ' ') + s1.1 then 2 + s3.1
            else
              if 2 + s2.1 < subM (X.getD i ' ') (Y.getD j ' ') + s1.1 then 2 + s2.1
              else subM (X.getD i ' ') (Y.getD j ' ') + s1.1),
        s3.2.2) := by
  subst hs1; subst hs2; subst hs3
  simp only [recMemoF]
  rw [if_pos hmemo, if_neg hi, if_neg hj, if_neg (by rw [hbx]; simp),
    if_neg (by rw [hby]; simp)]

/-- Main induction for the memoized engine: starting from any table
satisfying the invariant, `recMemoF` returns the recurrence value at the
current suffixes, preserves the invariant, and only ever appends non-base
characters to the `ManageBaseError` log. -/
lemma recMemoF_correct (X Y : List Char) :
    ∀ (fuel i j : ℕ) (memo : ℕ → ℕ → ℤ) (log : List Char),
      (X.length - i) + (Y.length - j) < fuel →
      i ≤ X.length → j ≤ Y.length → memoOK X Y memo →
      (recMemoF X Y X.length Y.length fuel i j memo log).1 =
          phiM (X.drop i) (Y.drop j) ∧
      memoOK X Y (recMemoF X Y X.length Y.length fuel i j memo log).2.1 ∧
      ∃ l4, (recMemoF X Y X.length Y.length fuel i j memo log).2.2 = log ++ l4 ∧
        ∀ c ∈ l4, isBase c = false := by
  intro fuel
  induction fuel with
  | zero => intro i j memo log hfuel; omega
  | succ fuel IH =>
    intro i j memo log hfuel hi hj hinv
    by_cases hmemo : memo i j = -1
    · by_cases hiM : i = X.length
      · by_cases hjN : j = Y.length
        · rw [recMemoF_MN X Y _ _ fuel i j memo log hmemo hiM hjN]
          refine ⟨?_, ?_, [], by simp, by simp⟩
          · simp only [hiM, hjN, List.drop_length, phiM_nn]
          · intro a b ha hb
            by_cases hab : a = i ∧ b = j
            · right
              simp [updM, hab.1, hab.2, hiM, hjN, List.drop_length, phiM_nn]
            · simpa only [updM, hab, if_false] using hinv a b ha hb
        · have hjl : j < Y.length := lt_of_le_of_ne hj hjN
          have hYc : Y.drop j = Y.getD j ' ' :: Y.drop (j + 1) := by
            rw [List.drop_eq_getElem_cons hjl, List.getD_eq_getElem Y ' ' hjl]
          obtain ⟨v1, inv1, l1, e1, b1⟩ :=
            IH i (j + 1) memo log (by omega) hi (by omega) hinv
          rw [recMemoF_Mj X Y _ _ fuel i j memo log hmemo hiM hjN]
          have hval : (if isBase (Y.getD j ' ') then 2 else 0) +
              (recMemoF X Y X.length Y.length fuel i (j + 1) memo log).1 =
              phiM (X.drop i) (Y.drop j) := by
            rw [v1, hiM, List.drop_length, hYc, phiM_nc]
          refine ⟨hval, ?_, l1, e1, b1⟩
          intro a b ha hb
          by_cases hab : a = i ∧ b = j
          · right
            simp only [updM]
            rw [if_pos hab, hab.1, hab.2]
            exact hval
          · simpa only [updM, hab, if_false] using inv1 a b ha hb
      · have hil : i < X.length := lt_of_le_of_ne hi hiM
        have hXc : X.drop i = X.getD i ' ' :: X.drop (i + 1) := by
          rw [List.drop_eq_getElem_cons hil, List.getD_eq_getElem X ' ' hil]
        by_cases hjN : j = Y.length
        · obtain ⟨v1, inv1, l1, e1, b1⟩ :=
            IH (i + 1) j memo log (by omega) (by omega) hj hinv
          rw [recMemoF_iN X Y _ _ fuel i j memo log hmemo hiM hjN]
          have hval : (if isBase (X.getD i ' ') then 2 else 0) +
              (recMemoF X Y X.length Y.length fuel (i + 1) j memo log).1 =
              phiM (X.drop i) (Y.drop j) := by
            rw [v1, hjN, List.drop_length, hXc, phiM_cn]
          refine ⟨hval, ?_, l1, e1, b1⟩
          intro a b ha hb
          by_cases hab : a = i ∧ b = j
          · right
            simp only [updM]
            rw [if_pos hab, hab.1, hab.2]
            exact hval
          · simpa only [updM, hab, if_false] using inv1 a b ha hb
        · have hjl : j < Y.length := lt_of_le_of_ne hj hjN
          have hYc : Y.drop j = Y.getD j ' ' :: Y.drop (j + 1) := by
            rw [List.drop_eq_getElem_cons hjl, List.getD_eq_getElem Y ' ' hjl]
          by_cases hbx : isBase (X.getD i ' ') = false
          · obtain ⟨v1, inv1, l1, e1, b1⟩ :=
              IH (i + 1) j memo (log ++ [X.getD i ' ']) (by omega) (by omega) hj hinv
            rw [recMemoF_skipX X Y _ _ fuel i j memo log hmemo hiM hjN hbx]
            have hval :
                (recMemoF X Y X.length Y.length fuel (i + 1) j memo
                    (log ++ [X.getD i ' '])).1 = phiM (X.drop i) (Y.drop j) := by
              rw [v1, hXc, hYc, phiM_ccx _ _ _ _ hbx, ← hYc]
            refine ⟨hval, ?_, X.getD i ' ' :: l1, ?_, ?_⟩
            · intro a b ha hb
              by_cases hab : a = i ∧ b = j
              · right
                simp only [updM]
                rw [if_pos hab, hab.1, hab.2]
                exact hval
              · simpa only [updM, hab, if_false] using inv1 a b ha hb
            · rw [e1]; simp
            · intro d hd
              rcases List.mem_cons.mp hd with h | h
              · rw [h]; exact hbx
              · exact b1 d h
          · have hbx2 : isBase (X.getD i ' ') = true := by
              revert hbx; cases isBase (X.getD i ' ') <;> simp
            by_cases hby : isBase (Y.getD j ' ') = false
            · obtain ⟨v1, inv1, l1, e1, b1⟩ :=
                IH i (j + 1) memo (log ++ [Y.getD j ' ']) (by omega) hi (by omega) hinv
              rw [recMemoF_skipY X Y _ _ fuel i j memo log hmemo hiM hjN hbx2 hby]
              have hval :
                  (recMemoF X Y X.length Y.length fuel i (j + 1) memo
                      (log ++ [Y.getD j ' '])).1 = phiM (X.drop i) (Y.drop j) := by
                rw [v1, hXc, hYc, phiM_ccy _ _ _ _ hbx2 hby, ← hXc]
              refine ⟨hval, ?_, Y.getD j ' ' :: l1, ?_, ?_⟩
              · intro a b ha hb
                by_cases hab : a = i ∧ b = j
                · right
                  simp only [updM]
                  rw [if_pos hab, hab.1, hab.2]
                  exact hval
                · simpa only [updM, hab, if_false] using inv1 a b ha hb
              · rw [e1]; simp
              · intro d hd
                rcases List.mem_cons.mp hd with h | h
                · rw [h]; exact hby
                · exact b1 d h
            · have hby2 : isBase (Y.getD j ' ') = true := by
                revert hby; cases isBase (Y.getD j ' ') <;> simp
              obtain ⟨v1, inv1, l1, e1, b1⟩ :=
                IH (i + 1) (j + 1) memo log (by omega) (by omega) (by omega) hinv
              set s1 := recMemoF X Y X.length Y.length fuel (i + 1) (j + 1) memo log
                with hs1
              obtain ⟨v2, inv2, l2, e2, b2⟩ :=
                IH (i + 1) j s1.2.1 s1.2.2 (by omega) (by omega) hj inv1
              set s2 := recMemoF X Y X.length Y.length fuel (i + 1) j s1.2.1 s1.2.2
                with hs2
              obtain ⟨v3, inv3, l3, e3, b3⟩ :=
                IH i (j + 1) s2.2.1 s2.2.2 (by omega) hi (by omega) inv2
              set s3 := recMemoF X Y X.length Y.length fuel i (j + 1) s2.2.1 s2.2.2
                with hs3
              rw [recMemoF_int X Y _ _ fuel i j memo log s1 s2 s3 hmemo hiM hjN
                hbx2 hby2 hs1 hs2 hs3]
              have hval :
                  (if 2 + s3.1 <
                      if 2 + s2.1 < subM (X.getD i ' ') (Y.getD j ' ') + s1.1
                        then 2 + s2.1
                        else subM (X.getD i ' ') (Y.getD j ' ') + s1.1
                    then 2 + s3.1
                    else
                      if 2 + s2.1 < subM (X.getD i ' ') (Y.getD j ' ') + s1.1
                        then 2 + s2.1
                        else subM (X.getD i ' ') (Y.getD j ' ') + s1.1) =
                  phiM (X.drop i) (Y.drop j) := by
                rw [v1, v2, v3, hXc, hYc, phiM_cc _ _ _ _ hbx2 hby2, ← hXc, ← hYc,
                  ite_lt_eq_min, ite_lt_eq_min]
                omega
              refine ⟨hval, ?_, l1 ++ l2 ++ l3, ?_, ?_⟩
              · intro a b ha hb
                by_cases hab : a = i ∧ b = j
                · right
                  simp only [updM]
                  rw [if_pos hab, hab.1, hab.2]
                  exact hval
                · simpa only [updM, hab, if_false] using inv3 a b ha hb
              · rw [e3, e2, e1]; simp
              · intro d hd
                simp only [List.mem_append] at hd
                rcases hd with (h | h) | h
                · exact b1 d h
                · exact b2 d h
                · exact b3 d h
    · rw [recMemoF_hit X Y _ _ fuel i j memo log hmemo]
      rcases hinv i j hi hj with h | h
      · exact absurd h hmemo
      · exact ⟨h, hinv, [], by simp, by simp⟩

/-! ### The memoized engine computes `phiM` on the ordered pair -/

lemma Rec_eq_phiM (A B : List Char) :
    EditDistance_NW_Rec A B = phiM (orderSeqs A B).1 (orderSeqs A B).2 := by
  obtain ⟨v, _, _⟩ := recMemoF_correct (orderSeqs A B).1 (orderSeqs A B).2
    ((orderSeqs A B).1.length + (orderSeqs A B).2.length + 1) 0 0
    (fun _ _ => -1) [] (by omega) (by omega) (by omega)
    (fun a b _ _ => Or.inl rfl)
  unfold EditDistance_NW_Rec
  simpa using v

lemma Rec_eq_phiM_AB (A B : List Char) : EditDistance_NW_Rec A B = phiM A B := by
  rw [Rec_eq_phiM]
  unfold orderSeqs
  by_cases h : B.length ≤ A.length
  · simp [h]
  · simp [h, phiM_comm B A]

/-- Every character the memoized engine ever hands to `ManageBaseError` is a
non-base character. -/
lemma Rec_log_nonbase (A B : List Char) :
    ∀ c ∈ EditDistance_NW_Rec_log A B, isBase c = false := by
  obtain ⟨_, _, l4, e4, b4⟩ := recMemoF_correct (orderSeqs A B).1 (orderSeqs A B).2
    ((orderSeqs A B).1.length + (orderSeqs A B).2.length + 1) 0 0
    (fun _ _ => -1) [] (by omega) (by omega) (by omega)
    (fun a b _ _ => Or.inl rfl)
  intro c hc
  unfold EditDistance_NW_Rec_log at hc
  rw [e4] at hc
  exact b4 c (by simpa using hc)

/-! ### Grid lemmas for the row algorithms -/

lemma drop_sub_cons (l : List Char) (r : ℕ) (h1 : 1 ≤ r) (h2 : r ≤ l.length) :
    l.drop (l.length - r) =
      l.getD (l.length - r) ' ' :: l.drop (l.length - (r - 1)) := by
  have hlt : l.length - r < l.length := by omega
  have e : l.length - (r - 1) = (l.length - r) + 1 := by omega
  rw [e, List.drop_eq_getElem_cons hlt, List.getD_eq_getElem l ' ' hlt]

lemma gridT_zz (X Y : List Char) : gridT X Y 0 0 = 0 := by
  simp [gridT, List.drop_length, phiIt_nn]

lemma gridT_row0_step (X Y : List Char) (c : ℕ) (h1 : 1 ≤ c) (h2 : c ≤ Y.length) :
    gridT X Y 0 c =
      gridT X Y 0 (c - 1) + (if isBase (Y.getD (Y.length - c) ' ') then 2 else 0) := by
  unfold gridT
  rw [Nat.sub_zero, List.drop_length, drop_sub_cons Y c h1 h2, phiIt_nc]
  omega

lemma gridT_col0_step (X Y : List Char) (r : ℕ) (h1 : 1 ≤ r) (h2 : r ≤ X.length) :
    gridT X Y r 0 =
      gridT X Y (r - 1) 0 + (if isBase (X.getD (X.length - r) ' ') then 2 else 0) := by
  unfold gridT
  rw [Nat.sub_zero, List.drop_length, drop_sub_cons X r h1 h2, phiIt_cn]
  omega

lemma gridT_step_y (X Y : List Char) (r c : ℕ)
    (_hr2 : r ≤ X.length) (hc1 : 1 ≤ c) (hc2 : c ≤ Y.length)
    (hby : isBase (Y.getD (Y.length - c) ' ') = false) :
    gridT X Y r c = gridT X Y r (c - 1) := by
  unfold gridT
  rw [drop_sub_cons Y c hc1 hc2]
  exact phiIt_skipy _ _ _ hby

lemma gridT_step_x (X Y : List Char) (r c : ℕ)
    (hr1 : 1 ≤ r) (hr2 : r ≤ X.length) (hc1 : 1 ≤ c) (hc2 : c ≤ Y.length)
    (hby : isBase (Y.getD (Y.length - c) ' ') = true)
    (hbx : isBase (X.getD (X.length - r) ' ') = false) :
    gridT X Y r c = gridT X Y (r - 1) c := by
  unfold gridT
  rw [drop_sub_cons X r hr1 hr2, drop_sub_cons Y c hc1 hc2,
    phiIt_ccx _ _ _ _ hby hbx, ← drop_sub_cons Y c hc1 hc2]

lemma gridT_step_min (X Y : List Char) (r c : ℕ)
    (hr1 : 1 ≤ r) (hr2 : r ≤ X.length) (hc1 : 1 ≤ c) (hc2 : c ≤ Y.length)
    (hby : isBase (Y.getD (Y.length - c) ' ') = true)
    (hbx : isBase (X.getD (X.length - r) ' ') = true) :
    gridT X Y r c =
      min (min (gridT X Y (r - 1) c + 2) (gridT X Y r (c - 1) + 2))
        ((if isSameBase (X.getD (X.length - r) ' ') (Y.getD (Y.length - c) ' ')
            then 0 else 1) + gridT X Y (r - 1) (c - 1)) := by
  unfold gridT
  rw [drop_sub_cons X r hr1 hr2, drop_sub_cons Y c hc1 hc2,
    phiIt_ccb _ _ _ _ hby hbx, ← drop_sub_cons X r hr1 hr2,
    ← drop_sub_cons Y c hc1 hc2]

/-! ### The initialization loop computes row 0 of the grid -/

lemma initLoop_spec (X Y : List Char) (ycol : ℕ → Char) (o : ℕ)
    (hy : ∀ j, 1 ≤ j → o + j ≤ Y.length →
      ycol j = Y.getD (Y.length - (o + j)) ' ') :
    ∀ (k j : ℕ) (tab : ℕ → ℤ),
      1 ≤ j → o + j + k ≤ Y.length + 1 →
      tab (j - 1) = gridT X Y 0 (o + j - 1) →
      ((∀ a, j ≤ a → a < j + k → initLoop ycol tab j k a = gridT X Y 0 (o + a)) ∧
       (∀ a, a < j ∨ j + k ≤ a → initLoop ycol tab j k a = tab a)) := by
  intro k
  induction k with
  | zero =>
    intro j tab h1 h2 h3
    rw [initLoop]
    exact ⟨fun a ha hb => absurd hb (by omega), fun a _ => rfl⟩
  | succ k IH =>
    intro j tab h1 h2 h3
    rw [initLoop]
    have hyj : ycol j = Y.getD (Y.length - (o + j)) ' ' := hy j h1 (by omega)
    have hval : tab (j - 1) + (if isBase (ycol j) then 2 else 0) =
        gridT X Y 0 (o + j) := by
      rw [h3, hyj, gridT_row0_step X Y (o + j) (by omega) (by omega)]
    obtain ⟨ih1, ih2⟩ := IH (j + 1)
      (upd tab j (tab (j - 1) + (if isBase (ycol j) then 2 else 0)))
      (by omega) (by omega)
      (by simpa [upd] using hval)
    refine ⟨?_, ?_⟩
    · intro a ha hb
      by_cases haj : a = j
      · rw [ih2 a (Or.inl (by omega))]
        subst haj
        simpa [upd] using hval
      · exact ih1 a (by omega) (by omega)
    · intro a ha
      have hne : ¬ a = j := by omega
      rw [ih2 a (by omega)]
      simp [upd, hne]

/-! ### The inner column loop computes one row of the grid -/

lemma nwInner_spec (X Y : List Char) (ycol : ℕ → Char) (o r : ℕ) (xi : Char)
    (hxi : xi = X.getD (X.length - r) ' ')
    (hr1 : 1 ≤ r) (hr2 : r ≤ X.length)
    (hy : ∀ j, 1 ≤ j → o + j ≤ Y.length →
      ycol j = Y.getD (Y.length - (o + j)) ' ') :
    ∀ (k j : ℕ) (tab : ℕ → ℤ) (prev : ℤ),
      1 ≤ j → o + j + k ≤ Y.length + 1 →
      (∀ a, a < j → tab a = gridT X Y r (o + a)) →
      (∀ a, j ≤ a → a < j + k → tab a = gridT X Y (r - 1) (o + a)) →
      prev = gridT X Y (r - 1) (o + j - 1) →
      ((∀ a, a < j + k → nwInner xi ycol tab prev j k a = gridT X Y r (o + a)) ∧
       (∀ a, j + k ≤ a → nwInner xi ycol tab prev j k a = tab a)) := by
  intro k
  induction k with
  | zero =>
    intro j tab prev h1 h2 hbelow hat hprev
    rw [nwInner]
    exact ⟨fun a ha => hbelow a (by omega), fun a _ => rfl⟩
  | succ k IH =>
    intro j tab prev h1 h2 hbelow hat hprev
    have hoj : o + j ≤ Y.length := by omega
    have hyj : ycol j = Y.getD (Y.length - (o + j)) ' ' := hy j h1 hoj
    simp only [nwInner]
    by_cases hby : isBase (ycol j) = false
    · rw [if_pos hby]
      have hcell : tab (j - 1) = gridT X Y r (o + j) := by
        rw [hbelow (j - 1) (by omega),
          gridT_step_y X Y r (o + j) hr2 (by omega) hoj (by rw [← hyj]; exact hby)]
        congr 1
        omega
      have hprev2 : tab j = gridT X Y (r - 1) (o + (j + 1) - 1) := by
        rw [hat j le_rfl (by omega)]
        congr 1
      obtain ⟨ih1, ih2⟩ := IH (j + 1) (upd tab j (tab (j - 1))) (tab j)
        (by omega) (by omega)
        (fun a ha => by
          by_cases haj : a = j
          · subst haj; simpa [upd] using hcell
          · rw [upd]; simp only [haj, if_false]; exact hbelow a (by omega))
        (fun a ha hb => by
          have hne : ¬ a = j := by omega
          rw [upd]; simp only [hne, if_false]; exact hat a (by omega) (by omega))
        hprev2
      refine ⟨?_, ?_⟩
      · intro a ha
        exact ih1 a (by omega)
      · intro a ha
        have hne : ¬ a = j := by omega
        rw [ih2 a (by omega), upd]
        simp [hne]
    · have hby2 : isBase (ycol j) = true := by
        revert hby; cases isBase (ycol j) <;> simp
      by_cases hbx : isBase xi = false
      · rw [if_neg (by rw [hby2]; simp), if_pos hbx]
        have hcell : tab j = gridT X Y r (o + j) := by
          rw [hat j le_rfl (by omega),
            gridT_step_x X Y r (o + j) hr1 hr2 (by omega) hoj
              (by rw [← hyj]; exact hby2) (by rw [← hxi]; exact hbx)]
        have hprev2 : tab j = gridT X Y (r - 1) (o + (j + 1) - 1) := by
          rw [hat j le_rfl (by omega)]
          congr 1
        obtain ⟨ih1, ih2⟩ := IH (j + 1) tab (tab j)
          (by omega) (by omega)
          (fun a ha => by
            by_cases haj : a = j
            · subst haj; exact hcell
            · exact hbelow a (by omega))
          (fun a ha hb => hat a (by omega) (by omega))
          hprev2
        refine ⟨?_, ?_⟩
        · intro a ha
          exact ih1 a (by omega)
        · intro a ha
          exact ih2 a (by omega)
      · have hbx2 : isBase xi = true := by
          revert hbx; cases isBase xi <;> simp
        rw [if_neg (by rw [hby2]; simp), if_neg (by rw [hbx2]; simp)]
        have ht1 : tab j = gridT X Y (r - 1) (o + j) := hat j le_rfl (by omega)
        have ht2 : tab (j - 1) = gridT X Y r (o + j - 1) := by
          rw [hbelow (j - 1) (by omega)]
          congr 1
          omega
        have hcell :
            (if (if tab j < tab (j - 1) then tab j else tab (j - 1)) + 2 <
                (if isSameBase xi (ycol j) then 0 else 1) + prev then
              (if tab j < tab (j - 1) then tab j else tab (j - 1)) + 2
            else (if isSameBase xi (ycol j) then 0 else 1) + prev) =
            gridT X Y r (o + j) := by
          rw [ht1, ht2, hprev, hxi, hyj, ite_lt_eq_min, ite_lt_eq_min,
            gridT_step_min X Y r (o + j) hr1 hr2 (by omega) hoj
              (by rw [← hyj]; exact hby2) (by rw [← hxi]; exact hbx2)]
          omega
        have hprev2 : tab j = gridT X Y (r - 1) (o + (j + 1) - 1) := by
          rw [ht1]
          congr 1
        obtain ⟨ih1, ih2⟩ := IH (j + 1)
          (upd tab j
            (if (if tab j < tab (j - 1) then tab j else tab (j - 1)) + 2 <
                (if isSameBase xi (ycol j) then 0 else 1) + prev then
              (if tab j < tab (j - 1) then tab j else tab (j - 1)) + 2
            else (if isSameBase xi (ycol j) then 0 else 1) + prev))
          (tab j) (by omega) (by omega)
          (fun a ha => by
            by_cases haj : a = j
            · subst haj; simpa [upd] using hcell
            · rw [upd]; simp only [haj, if_false]; exact hbelow a (by omega))
          (fun a ha hb => by
            have hne : ¬ a = j := by omega
            rw [upd]; simp only [hne, if_false]; exact hat a (by omega) (by omega))
          hprev2
        refine ⟨?_, ?_⟩
        · intro a ha
          exact ih1 a (by omega)
        · intro a ha
          have hne : ¬ a = j := by omega
          rw [ih2 a (by omega), upd]
          simp [hne]

/-! ### The outer row loop of the iterative engine -/

lemma iterRows_spec (X Y : List Char) (xcol ycol : ℕ → Char)
    (hx : ∀ i, 1 ≤ i → i ≤ X.length → xcol i = X.getD (X.length - i) ' ')
    (hy : ∀ j, 1 ≤ j → j ≤ Y.length → ycol j = Y.getD (Y.length - j) ' ') :
    ∀ (rows i : ℕ) (tab : ℕ → ℤ),
      1 ≤ i → i + rows ≤ X.length + 1 →
      (∀ a, a ≤ Y.length → tab a = gridT X Y (i - 1) a) →
      ∀ a, a ≤ Y.length →
        iterRows xcol ycol Y.length tab i rows a = gridT X Y (i - 1 + rows) a := by
  intro rows
  induction rows with
  | zero =>
    intro i tab h1 h2 ht a ha
    rw [iterRows]
    simpa using ht a ha
  | succ rows IH =>
    intro i tab h1 h2 ht a ha
    simp only [iterRows]
    have hxi : xcol i = X.getD (X.length - i) ' ' := hx i h1 (by omega)
    have hcol0 : tab 0 + (if isBase (xcol i) then 2 else 0) = gridT X Y i 0 := by
      rw [ht 0 (by omega), hxi, gridT_col0_step X Y i h1 (by omega)]
    obtain ⟨in1, in2⟩ := nwInner_spec X Y ycol 0 i (xcol i) (by rw [hxi]) h1 (by omega)
      (fun j hj1 hj2 => by
        rw [Nat.zero_add]
        exact hy j hj1 (by omega))
      Y.length 1 (upd tab 0 (tab 0 + (if isBase (xcol i) then 2 else 0))) (tab 0)
      (by omega) (by omega)
      (fun a ha2 => by
        have ha0 : a = 0 := by omega
        subst ha0
        simpa [upd] using hcol0)
      (fun a ha2 hb2 => by
        have hne : ¬ a = 0 := by omega
        rw [upd]
        simp only [hne, if_false]
        have := ht a (by omega)
        rw [this]
        congr 1
        omega)
      (by rw [ht 0 (by omega)])
    have hrows : ∀ a2, a2 ≤ Y.length →
        nwInner (xcol i) ycol
            (upd tab 0 (tab 0 + (if isBase (xcol i) then 2 else 0))) (tab 0) 1
            Y.length a2 = gridT X Y i a2 := by
      intro a2 ha2
      have := in1 a2 (by omega)
      rw [this]
      congr 1
      omega
    have e : i - 1 + (rows + 1) = (i + 1) - 1 + rows := by omega
    rw [e]
    exact IH (i + 1)
      (nwInner (xcol i) ycol
        (upd tab 0 (tab 0 + (if isBase (xcol i) then 2 else 0))) (tab 0) 1 Y.length)
      (by omega) (by omega)
      (fun a2 ha2 => by simpa using hrows a2 ha2) a ha

/-- The iterative engine computes the full grid value `gridT X Y M N`,
i.e. `phiIt X Y`, on the ordered pair. -/
lemma iteratif_eq_phiIt (A B : List Char) :
    EditDistance_NW_iteratif A B = phiIt (orderSeqs A B).1 (orderSeqs A B).2 := by
  simp only [EditDistance_NW_iteratif]
  obtain ⟨i1, i2⟩ := initLoop_spec (orderSeqs A B).1 (orderSeqs A B).2
    (fun j => (orderSeqs A B).2.getD ((orderSeqs A B).2.length - j) ' ') 0
    (fun j hj1 hj2 => by rw [Nat.zero_add])
    (orderSeqs A B).2.length 1 (fun _ => 0)
    (by omega) (by omega)
    (by simpa using (gridT_zz (orderSeqs A B).1 (orderSeqs A B).2).symm)
  have htab0 : ∀ a, a ≤ (orderSeqs A B).2.length →
      initLoop (fun j => (orderSeqs A B).2.getD ((orderSeqs A B).2.length - j) ' ')
        (fun _ => 0) 1 (orderSeqs A B).2.length a =
      gridT (orderSeqs A B).1 (orderSeqs A B).2 0 a := by
    intro a ha
    by_cases ha0 : a = 0
    · subst ha0
      rw [i2 0 (Or.inl (by omega))]
      exact (gridT_zz _ _).symm
    · have := i1 a (by omega) (by omega)
      rw [this]
      congr 1
      omega
  have hres := iterRows_spec (orderSeqs A B).1 (orderSeqs A B).2
    (fun i => (orderSeqs A B).1.getD ((orderSeqs A B).1.length - i) ' ')
    (fun j => (orderSeqs A B).2.getD ((orderSeqs A B).2.length - j) ' ')
    (fun i hi1 hi2 => rfl) (fun j hj1 hj2 => rfl)
    (orderSeqs A B).1.length 1
    (initLoop (fun j => (orderSeqs A B).2.getD ((orderSeqs A B).2.length - j) ' ')
      (fun _ => 0) 1 (orderSeqs A B).2.length)
    (by omega) (by omega)
    (fun a ha => by simpa using htab0 a ha)
    (orderSeqs A B).2.length le_rfl
  rw [hres]
  unfold gridT
  simp [List.drop_length]

/-! ### The blocked row loop (cache-aware and cache-oblivious engines) -/

lemma blockRows_spec (X Y : List Char) (xcol ycol : ℕ → Char) (o bn : ℕ)
    (hx : ∀ i, 1 ≤ i → i ≤ X.length → xcol i = X.getD (X.length - i) ' ')
    (hy : ∀ j, 1 ≤ j → o + j ≤ Y.length →
      ycol j = Y.getD (Y.length - (o + j)) ' ')
    (hbn : o + bn ≤ Y.length) :
    ∀ (rows i : ℕ) (tab col : ℕ → ℤ),
      1 ≤ i → i + rows ≤ X.length + 1 →
      (∀ a, a ≤ bn → tab a = gridT X Y (i - 1) (o + a)) →
      (∀ b, b ≤ X.length → i ≤ b → col b = gridT X Y b o) →
      (∀ b, b ≤ X.length → b < i → col b = gridT X Y b (o + bn)) →
      ∀ b, b ≤ X.length →
        (blockRows xcol ycol bn tab col i rows).2 b =
          (if b < i + rows then gridT X Y b (o + bn) else gridT X Y b o) := by
  intro rows
  induction rows with
  | zero =>
    intro i tab col h1 h2 htab hcol1 hcol2 b hb
    rw [blockRows]
    by_cases hbi : b < i
    · rw [if_pos (by omega)]
      exact hcol2 b hb hbi
    · rw [if_neg (by omega)]
      exact hcol1 b hb (by omega)
  | succ rows IH =>
    intro i tab col h1 h2 htab hcol1 hcol2 b hb
    simp only [blockRows]
    have hcoli : col i = gridT X Y i o := hcol1 i (by omega) le_rfl
    obtain ⟨in1, in2⟩ := nwInner_spec X Y ycol o i (xcol i)
      (by rw [hx i h1 (by omega)]) h1 (by omega) hy
      bn 1 (upd tab 0 (col i)) (tab 0)
      (by omega) (by omega)
      (fun a ha => by
        have ha0 : a = 0 := by omega
        subst ha0
        rw [upd]
        simp only [if_pos rfl, hcoli]
        congr 1)
      (fun a ha hb2 => by
        have hne : ¬ a = 0 := by omega
        rw [upd]
        simp only [hne, if_false]
        exact htab a (by omega))
      (by
        rw [htab 0 (by omega)]
        congr 1)
    have htab2 : ∀ a, a ≤ bn →
        nwInner (xcol i) ycol (upd tab 0 (col i)) (tab 0) 1 bn a =
          gridT X Y i (o + a) := by
      intro a ha
      exact in1 a (by omega)
    have hres := IH (i + 1)
      (nwInner (xcol i) ycol (upd tab 0 (col i)) (tab 0) 1 bn)
      (upd col i (nwInner (xcol i) ycol (upd tab 0 (col i)) (tab 0) 1 bn bn))
      (by omega) (by omega)
      (fun a ha => by simpa using htab2 a ha)
      (fun b2 hb2 hbi => by
        have hne : ¬ b2 = i := by omega
        rw [upd]
        simp only [hne, if_false]
        exact hcol1 b2 hb2 (by omega))
      (fun b2 hb2 hbi => by
        by_cases hbe : b2 = i
        · subst hbe
          rw [upd]
          simp only [if_pos rfl]
          exact htab2 bn le_rfl
        · rw [upd]
          simp only [hbe, if_false]
          exact hcol2 b2 hb2 (by omega))
      b hb
    rw [hres]
    by_cases hlt : b < i + (rows + 1)
    · rw [if_pos (by omega), if_pos hlt]
    · rw [if_neg (by omega), if_neg hlt]

/-! ### The boundary-column initialization (lines 261-264 and 339-342) -/

lemma initLoop_col_spec (X Y : List Char) (xcol : ℕ → Char)
    (hx : ∀ i, 1 ≤ i → i ≤ X.length → xcol i = X.getD (X.length - i) ' ') :
    ∀ (k i : ℕ) (col : ℕ → ℤ),
      1 ≤ i → i + k ≤ X.length + 1 →
      col (i - 1) = gridT X Y (i - 1) 0 →
      ((∀ a, i ≤ a → a < i + k → initLoop xcol col i k a = gridT X Y a 0) ∧
       (∀ a, a < i ∨ i + k ≤ a → initLoop xcol col i k a = col a)) := by
  intro k
  induction k with
  | zero =>
    intro i col h1 h2 h3
    rw [initLoop]
    exact ⟨fun a ha hb => absurd hb (by omega), fun a _ => rfl⟩
  | succ k IH =>
    intro i col h1 h2 h3
    rw [initLoop]
    have hval : col (i - 1) + (if isBase (xcol i) then 2 else 0) =
        gridT X Y i 0 := by
      rw [h3, hx i h1 (by omega), gridT_col0_step X Y i h1 (by omega)]
    obtain ⟨ih1, ih2⟩ := IH (i + 1)
      (upd col i (col (i - 1) + (if isBase (xcol i) then 2 else 0)))
      (by omega) (by omega)
      (by simpa [upd] using hval)
    refine ⟨?_, ?_⟩
    · intro a ha hb
      by_cases hai : a = i
      · rw [ih2 a (Or.inl (by omega))]
        subst hai
        simpa [upd] using hval
      · exact ih1 a (by omega) (by omega)
    · intro a ha
      have hne : ¬ a = i := by omega
      rw [ih2 a (by omega)]
      simp [upd, hne]

/-! ### The cache-aware block loop -/

lemma awareLoop_spec (X Y : List Char) (nbc : ℕ) (hnbc : 1 ≤ nbc) :
    ∀ (fuel o : ℕ) (Nst : ℤ) (tab col : ℕ → ℤ),
      (0 < Nst ↔ o < Y.length) →
      (o < Y.length → Nst = (Y.length : ℤ) - (o : ℤ)) →
      o ≤ Y.length → Y.length - o < fuel →
      (∀ b, b ≤ X.length → col b = gridT X Y b o) →
      ∃ tab2 col2,
        awareLoop X Y X.length nbc fuel Nst tab col = some (tab2, col2) ∧
        ∀ b, b ≤ X.length → col2 b = gridT X Y b Y.length := by
  intro fuel
  induction fuel with
  | zero => intro o Nst tab col hiff heq ho hfuel; omega
  | succ fuel IH =>
    intro o Nst tab col hiff heq ho hfuel hcol
    by_cases hoN : o < Y.length
    · have hpos : 0 < Nst := hiff.mpr hoN
      have hNst : Nst = (Y.length : ℤ) - (o : ℤ) := heq hoN
      simp only [awareLoop]
      rw [if_pos hpos]
      have hbnv : (if Nst < (nbc : ℤ) then Nst else (nbc : ℤ)).toNat =
          min (Y.length - o) nbc := by
        by_cases hc : Nst < (nbc : ℤ)
        · rw [if_pos hc]; omega
        · rw [if_neg hc]; omega
      set bn := (if Nst < (nbc : ℤ) then Nst else (nbc : ℤ)).toNat with hbn
      have hyB : ∀ j, 1 ≤ j → o + j ≤ Y.length →
          (fun j => Y.getD (Nst - (j : ℤ)).toNat ' ') j =
            Y.getD (Y.length - (o + j)) ' ' := by
        intro j hj1 hj2
        have : (Nst - (j : ℤ)).toNat = Y.length - (o + j) := by omega
        simp only [this]
      have hobn : o + bn ≤ Y.length := by omega
      obtain ⟨i1, i2⟩ := initLoop_spec X Y
        (fun j => Y.getD (Nst - (j : ℤ)).toNat ' ') o hyB
        bn 1 (upd tab 0 (col 0))
        (by omega) (by omega)
        (by
          rw [upd]
          simp only [if_pos rfl]
          rw [hcol 0 (by omega)]
          congr 1)
      have htab1 : ∀ a, a ≤ bn →
          initLoop (fun j => Y.getD (Nst - (j : ℤ)).toNat ' ')
            (upd tab 0 (col 0)) 1 bn a = gridT X Y 0 (o + a) := by
        intro a ha
        by_cases ha0 : a = 0
        · subst ha0
          rw [i2 0 (Or.inl (by omega)), upd]
          simp only [if_pos rfl]
          rw [hcol 0 (by omega)]
          congr 1
        · exact i1 a (by omega) (by omega)
      have hrows := blockRows_spec X Y
        (fun i => X.getD (X.length - i) ' ')
        (fun j => Y.getD (Nst - (j : ℤ)).toNat ' ') o bn
        (fun i _ _ => rfl) hyB hobn
        X.length 1
        (initLoop (fun j => Y.getD (Nst - (j : ℤ)).toNat ' ')
          (upd tab 0 (col 0)) 1 bn)
        (upd col 0
          (initLoop (fun j => Y.getD (Nst - (j : ℤ)).toNat ' ')
            (upd tab 0 (col 0)) 1 bn bn))
        (by omega) (by omega)
        (fun a ha => by simpa using htab1 a ha)
        (fun b hb hbi => by
          have hne : ¬ b = 0 := by omega
          rw [upd]
          simp only [hne, if_false]
          exact hcol b hb)
        (fun b hb hbi => by
          have hb0 : b = 0 := by omega
          subst hb0
          rw [upd]
          simp only [if_pos rfl]
          exact htab1 bn le_rfl)
      have hcolgrid : ∀ b, b ≤ X.length →
          (blockRows (fun i => X.getD (X.length - i) ' ')
            (fun j => Y.getD (Nst - (j : ℤ)).toNat ' ') bn
            (initLoop (fun j => Y.getD (Nst - (j : ℤ)).toNat ' ')
              (upd tab 0 (col 0)) 1 bn)
            (upd col 0
              (initLoop (fun j => Y.getD (Nst - (j : ℤ)).toNat ' ')
                (upd tab 0 (col 0)) 1 bn bn))
            1 X.length).2 b = gridT X Y b (o + bn) := by
        intro b hb
        rw [hrows b hb, if_pos (by omega)]
      exact IH (o + bn) (Nst - (nbc : ℤ)) _ _ (by constructor <;> (intro h; omega))
        (by intro h; omega) (by omega) (by omega)
        (fun b hb => by
          rw [hcolgrid b hb])
    · have ho2 : o = Y.length := by omega
      have hneg : ¬ 0 < Nst := fun hc => hoN (hiff.mp hc)
      simp only [awareLoop]
      rw [if_neg hneg]
      refine ⟨tab, col, rfl, fun b hb => ?_⟩
      rw [hcol b hb, ho2]

/-- With a zero block width the cache-aware `while (N > 0)` loop makes no
progress: it returns nothing at any fuel whenever `N ≥ 1`. -/
lemma awareLoop_stuck (X Y : List Char) (M : ℕ) :
    ∀ (fuel : ℕ) (Nst : ℤ) (tab col : ℕ → ℤ), 0 < Nst →
      awareLoop X Y M 0 fuel Nst tab col = none := by
  intro fuel
  induction fuel with
  | zero => intro Nst tab col h; rw [awareLoop]
  | succ fuel IH =>
    intro Nst tab col h
    simp only [awareLoop]
    rw [if_pos h]
    apply IH
    omega

/-- For any budget whose derived block count `Z / 40` is at least 1, the
cache-aware engine terminates and returns the iterative recurrence value of
the ordered pair. -/
lemma cache_aware_eq (A B : List Char) (Z : ℕ) (hZ : 1 ≤ Z / 40) :
    EditDistance_NW_cache_aware A B Z =
      some (phiIt (orderSeqs A B).1 (orderSeqs A B).2) := by
  simp only [EditDistance_NW_cache_aware]
  obtain ⟨c1, c2⟩ := initLoop_col_spec (orderSeqs A B).1 (orderSeqs A B).2
    (fun i => (orderSeqs A B).1.getD ((orderSeqs A B).1.length - i) ' ')
    (fun i _ _ => rfl)
    (orderSeqs A B).1.length 1 (fun _ => 0)
    (by omega) (by omega)
    (by simpa using (gridT_zz (orderSeqs A B).1 (orderSeqs A B).2).symm)
  have hcol0 : ∀ b, b ≤ (orderSeqs A B).1.length →
      initLoop (fun i => (orderSeqs A B).1.getD ((orderSeqs A B).1.length - i) ' ')
        (fun _ => 0) 1 (orderSeqs A B).1.length b =
      gridT (orderSeqs A B).1 (orderSeqs A B).2 b 0 := by
    intro b hb
    by_cases hb0 : b = 0
    · subst hb0
      rw [c2 0 (Or.inl (by omega))]
      exact (gridT_zz _ _).symm
    · exact c1 b (by omega) (by omega)
  obtain ⟨tab2, col2, heq, hcol⟩ := awareLoop_spec (orderSeqs A B).1
    (orderSeqs A B).2 (Z / 40) hZ ((orderSeqs A B).2.length + 1) 0
    ((orderSeqs A B).2.length : ℤ) (fun _ => 0)
    (initLoop (fun i => (orderSeqs A B).1.getD ((orderSeqs A B).1.length - i) ' ')
      (fun _ => 0) 1 (orderSeqs A B).1.length)
    (by omega) (by intro h; omega) (by omega) (by omega)
    (fun b hb => hcol0 b hb)
  rw [heq]
  show some (col2 (orderSeqs A B).1.length) =
    some (phiIt (orderSeqs A B).1 (orderSeqs A B).2)
  rw [hcol (orderSeqs A B).1.length le_rfl]
  unfold gridT
  simp [List.drop_length]

/-! ### The cache-oblivious helper -/

/-- Every base-case invocation of the helper with `debut_seq > 0` fails the
bounds check on the line-380 read `tab[fin_seq]` (the local array has only
`taille + 1` cells), so any call rooted at a positive `debut_seq` produces
the out-of-bounds marker. -/
lemma coHelper_oob (X Y : List Char) (M N : ℕ) (seuil : ℤ) (hs : 1 ≤ seuil) :
    ∀ (fuel debut fin : ℕ) (col : ℕ → ℤ),
      1 ≤ debut → debut ≤ fin → fin - debut < fuel →
      coHelper X Y M N seuil fuel col debut fin = some none := by
  intro fuel
  induction fuel with
  | zero => intro debut fin col h1 h2 h3; omega
  | succ fuel IH =>
    intro debut fin col h1 h2 h3
    simp only [coHelper]
    by_cases hg : ((fin - debut : ℕ) : ℤ) > seuil
    · rw [if_pos hg]
      have htl : 2 ≤ fin - debut := by omega
      rw [IH debut ((fin - debut) / 2 + debut) col h1 (by omega) (by omega)]
    · rw [if_neg hg, if_neg (by omega)]

/-- Main characterization of the helper on a range starting at column 0 with
a positive threshold: a single block (`fin ≤ seuil`) computes the boundary
array of column `fin`; any larger range ends in the out-of-bounds marker,
because its second base-case block runs with `debut_seq > 0`. -/
lemma coHelper_main (X Y : List Char) (seuil : ℤ) (hs : 1 ≤ seuil) :
    ∀ (fuel fin : ℕ) (col : ℕ → ℤ),
      fin ≤ Y.length → fin < fuel →
      (∀ b, b ≤ X.length → col b = gridT X Y b 0) →
      (((fin : ℤ) ≤ seuil →
        ∃ col2,
          coHelper X Y X.length Y.length seuil fuel col 0 fin = some (some col2) ∧
          ∀ b, b ≤ X.length → col2 b = gridT X Y b fin) ∧
       (seuil < (fin : ℤ) →
        coHelper X Y X.length Y.length seuil fuel col 0 fin = some none)) := by
  intro fuel
  induction fuel with
  | zero => intro fin col h1 h2 h3; omega
  | succ fuel IH =>
    intro fin col hfin hfuel hcol
    constructor
    · intro hsmall
      simp only [coHelper]
      rw [if_neg (by omega), if_pos (by omega)]
      obtain ⟨i1, i2⟩ := initLoop_spec X Y
        (fun j => Y.getD (Y.length - j - 0) ' ') 0
        (fun j hj1 hj2 => by
          have e : Y.length - j - 0 = Y.length - (0 + j) := by omega
          simp only [e])
        (fin - 0) 1 (upd (fun _ => 0) 0 (col 0))
        (by omega) (by omega)
        (by
          rw [upd]
          simp only [if_pos rfl]
          rw [hcol 0 (by omega)]
          exact congrArg (gridT X Y 0) (by omega))
      have htab1 : ∀ a, a ≤ fin - 0 →
          initLoop (fun j => Y.getD (Y.length - j - 0) ' ')
            (upd (fun _ => 0) 0 (col 0)) 1 (fin - 0) a =
            gridT X Y 0 (0 + a) := by
        intro a ha
        by_cases ha0 : a = 0
        · subst ha0
          rw [i2 0 (Or.inl (by omega)), upd]
          simp only [if_pos rfl]
          rw [hcol 0 (by omega)]
          exact congrArg (gridT X Y 0) (by omega)
        · exact i1 a (by omega) (by omega)
      have hrows := blockRows_spec X Y
        (fun i => X.getD (X.length - i) ' ')
        (fun j => Y.getD (Y.length - j - 0) ' ') 0 (fin - 0)
        (fun i _ _ => rfl)
        (fun j hj1 hj2 => by
          have e : Y.length - j - 0 = Y.length - (0 + j) := by omega
          simp only [e])
        (by omega)
        X.length 1
        (initLoop (fun j => Y.getD (Y.length - j - 0) ' ')
          (upd (fun _ => 0) 0 (col 0)) 1 (fin - 0))
        (upd col 0
          (initLoop (fun j => Y.getD (Y.length - j - 0) ' ')
            (upd (fun _ => 0) 0 (col 0)) 1 (fin - 0) fin))
        (by omega) (by omega)
        (fun a ha => by simpa using htab1 a ha)
        (fun b hb hbi => by
          have hne : ¬ b = 0 := by omega
          rw [upd]
          simp only [hne, if_false]
          exact hcol b hb)
        (fun b hb hbi => by
          have hb0 : b = 0 := by omega
          subst hb0
          rw [upd]
          simp only [if_pos rfl]
          have := htab1 fin (by omega)
          rw [this]
          exact congrArg (gridT X Y 0) (by omega))
      refine ⟨_, rfl, fun b hb => ?_⟩
      rw [hrows b hb, if_pos (by omega)]
      exact congrArg (gridT X Y b) (by omega)
    · intro hbig
      simp only [coHelper]
      rw [if_pos (by omega)]
      have htl : 2 ≤ fin := by omega
      have hm1 : 1 ≤ (fin - 0) / 2 + 0 := by omega
      have hm2 : (fin - 0) / 2 + 0 ≤ Y.length := by omega
      have hm3 : (fin - 0) / 2 + 0 < fuel := by omega
      by_cases hms : (((fin - 0) / 2 + 0 : ℕ) : ℤ) ≤ seuil
      · obtain ⟨col2, hl, hcol2⟩ :=
          (IH ((fin - 0) / 2 + 0) col hm2 hm3 hcol).1 hms
        rw [hl]
        exact coHelper_oob X Y X.length Y.length seuil hs fuel
          ((fin - 0) / 2 + 0) fin col2 hm1 (by omega) (by omega)
      · have hl := (IH ((fin - 0) / 2 + 0) col hm2 hm3 hcol).2 (by omega)
        rw [hl]

/-- With a positive threshold at least the shorter length, the helper runs as
one block and the cache-oblivious engine returns the iterative value. -/
lemma cache_oblivious_eq (A B : List Char) (t : ℤ) (ht : 1 ≤ t)
    (hN : ((orderSeqs A B).2.length : ℤ) ≤ t) :
    EditDistance_NW_cache_oblivious A B t =
      some (some (phiIt (orderSeqs A B).1 (orderSeqs A B).2)) := by
  simp only [EditDistance_NW_cache_oblivious]
  obtain ⟨c1, c2⟩ := initLoop_col_spec (orderSeqs A B).1 (orderSeqs A B).2
    (fun i => (orderSeqs A B).1.getD ((orderSeqs A B).1.length - i) ' ')
    (fun i _ _ => rfl)
    (orderSeqs A B).1.length 1 (fun _ => 0)
    (by omega) (by omega)
    (by simpa using (gridT_zz (orderSeqs A B).1 (orderSeqs A B).2).symm)
  have hcol0 : ∀ b, b ≤ (orderSeqs A B).1.length →
      initLoop (fun i => (orderSeqs A B).1.getD ((orderSeqs A B).1.length - i) ' ')
        (fun _ => 0) 1 (orderSeqs A B).1.length b =
      gridT (orderSeqs A B).1 (orderSeqs A B).2 b 0 := by
    intro b hb
    by_cases hb0 : b = 0
    · subst hb0
      rw [c2 0 (Or.inl (by omega))]
      exact (gridT_zz _ _).symm
    · exact c1 b (by omega) (by omega)
  obtain ⟨col2, heq, hcol⟩ := (coHelper_main (orderSeqs A B).1 (orderSeqs A B).2
    t ht ((orderSeqs A B).2.length + 1) (orderSeqs A B).2.length
    (initLoop (fun i => (orderSeqs A B).1.getD ((orderSeqs A B).1.length - i) ' ')
      (fun _ => 0) 1 (orderSeqs A B).1.length)
    le_rfl (by omega) hcol0).1 hN
  rw [heq]
  show some (some (col2 (orderSeqs A B).1.length)) = _
  rw [hcol (orderSeqs A B).1.length le_rfl]
  unfold gridT
  simp [List.drop_length]

/-- With a positive threshold smaller than the shorter length, the line-380
read `tab[fin_seq]` goes out of bounds in the second base block, and the
cache-oblivious engine returns the out-of-bounds marker. -/
lemma cache_oblivious_oob (A B : List Char) (t : ℤ) (ht : 1 ≤ t)
    (hN : t < ((orderSeqs A B).2.length : ℤ)) :
    EditDistance_NW_cache_oblivious A B t = some none := by
  simp only [EditDistance_NW_cache_oblivious]
  obtain ⟨c1, c2⟩ := initLoop_col_spec (orderSeqs A B).1 (orderSeqs A B).2
    (fun i => (orderSeqs A B).1.getD ((orderSeqs A B).1.length - i) ' ')
    (fun i _ _ => rfl)
    (orderSeqs A B).1.length 1 (fun _ => 0)
    (by omega) (by omega)
    (by simpa using (gridT_zz (orderSeqs A B).1 (orderSeqs A B).2).symm)
  have hcol0 : ∀ b, b ≤ (orderSeqs A B).1.length →
      initLoop (fun i => (orderSeqs A B).1.getD ((orderSeqs A B).1.length - i) ' ')
        (fun _ => 0) 1 (orderSeqs A B).1.length b =
      gridT (orderSeqs A B).1 (orderSeqs A B).2 b 0 := by
    intro b hb
    by_cases hb0 : b = 0
    · subst hb0
      rw [c2 0 (Or.inl (by omega))]
      exact (gridT_zz _ _).symm
    · exact c1 b (by omega) (by omega)
  have heq := (coHelper_main (orderSeqs A B).1 (orderSeqs A B).2
    t ht ((orderSeqs A B).2.length + 1) (orderSeqs A B).2.length
    (initLoop (fun i => (orderSeqs A B).1.getD ((orderSeqs A B).1.length - i) ' ')
      (fun _ => 0) 1 (orderSeqs A B).1.length)
    le_rfl (by omega) hcol0).2 hN
  rw [heq]

/-! ### Facts about the sequence ordering -/

lemma orderSeqs_snd_len (A B : List Char) :
    (orderSeqs A B).2.length = min A.length B.length := by
  unfold orderSeqs
  by_cases h : B.length ≤ A.length
  · rw [if_pos h]
    show B.length = min A.length B.length
    omega
  · rw [if_neg h]
    show A.length = min A.length B.length
    omega

lemma orderSeqs_swap (A B : List Char) (h : ¬ A.length = B.length) :
    orderSeqs B A = orderSeqs A B := by
  unfold orderSeqs
  by_cases h1 : B.length ≤ A.length
  · rw [if_neg (by omega), if_pos h1]
  · rw [if_pos (by omega), if_neg h1]

/-! ### Engine values in terms of the unordered input pair -/

lemma iteratif_eq_phiIt_AB (A B : List Char) :
    EditDistance_NW_iteratif A B = phiIt A B := by
  rw [iteratif_eq_phiIt]
  unfold orderSeqs
  by_cases h : B.length ≤ A.length
  · simp [h]
  · simp [h, phiIt_comm B A]

lemma cache_aware_eq_AB (A B : List Char) (Z : ℕ) (hZ : 1 ≤ Z / 40) :
    EditDistance_NW_cache_aware A B Z = some (phiIt A B) := by
  rw [cache_aware_eq A B Z hZ]
  unfold orderSeqs
  by_cases h : B.length ≤ A.length
  · simp [h]
  · simp [h, phiIt_comm B A]

lemma cache_oblivious_eq_AB (A B : List Char) (t : ℤ) (ht : 1 ≤ t)
    (hN : (min A.length B.length : ℤ) ≤ t) :
    EditDistance_NW_cache_oblivious A B t = some (some (phiIt A B)) := by
  rw [cache_oblivious_eq A B t ht (by rw [orderSeqs_snd_len]; exact_mod_cast hN)]
  unfold orderSeqs
  by_cases h : B.length ≤ A.length
  · simp [h]
  · simp [h, phiIt_comm B A]

lemma cache_oblivious_oob_AB (A B : List Char) (t : ℤ) (ht : 1 ≤ t)
    (hN : t < (min A.length B.length : ℤ)) :
    EditDistance_NW_cache_oblivious A B t = some none := by
  exact cache_oblivious_oob A B t ht (by rw [orderSeqs_snd_len]; exact_mod_cast hN)

/-! ### Divergence and empty-Y edge cases of the tuned engines -/

lemma cache_aware_div (A B : List Char) (Z : ℕ) (hZ : Z / 40 = 0)
    (hN : 1 ≤ min A.length B.length) :
    EditDistance_NW_cache_aware A B Z = none := by
  have hlen : 1 ≤ (orderSeqs A B).2.length := by rw [orderSeqs_snd_len]; omega
  simp only [EditDistance_NW_cache_aware]
  rw [hZ, awareLoop_stuck (orderSeqs A B).1 (orderSeqs A B).2
    (orderSeqs A B).1.length _ _ _ _ (by omega)]

lemma cache_aware_N0 (A B : List Char) (Z : ℕ)
    (h : (orderSeqs A B).2.length = 0) :
    EditDistance_NW_cache_aware A B Z =
      some (phiIt (orderSeqs A B).1 (orderSeqs A B).2) := by
  have hY : (orderSeqs A B).2 = [] := List.length_eq_zero.mp h
  simp only [EditDistance_NW_cache_aware]
  rw [h]
  simp only [awareLoop]
  rw [if_neg (by omega)]
  obtain ⟨c1, c2⟩ := initLoop_col_spec (orderSeqs A B).1 (orderSeqs A B).2
    (fun i => (orderSeqs A B).1.getD ((orderSeqs A B).1.length - i) ' ')
    (fun i _ _ => rfl)
    (orderSeqs A B).1.length 1 (fun _ => 0)
    (by omega) (by omega)
    (by simpa using (gridT_zz (orderSeqs A B).1 (orderSeqs A B).2).symm)
  show some
      (initLoop (fun i => (orderSeqs A B).1.getD ((orderSeqs A B).1.length - i) ' ')
        (fun _ => 0) 1 (orderSeqs A B).1.length (orderSeqs A B).1.length) =
    some (phiIt (orderSeqs A B).1 (orderSeqs A B).2)
  have hcM : initLoop
      (fun i => (orderSeqs A B).1.getD ((orderSeqs A B).1.length - i) ' ')
      (fun _ => 0) 1 (orderSeqs A B).1.length (orderSeqs A B).1.length =
      gridT (orderSeqs A B).1 (orderSeqs A B).2 (orderSeqs A B).1.length 0 := by
    by_cases hM : (orderSeqs A B).1.length = 0
    · rw [c2 (orderSeqs A B).1.length (Or.inl (by omega))]
      rw [hM]
      exact (gridT_zz _ _).symm
    · exact c1 (orderSeqs A B).1.length (by omega) (by omega)
  rw [hcM]
  unfold gridT
  rw [hY]
  simp [List.drop_length]

lemma coHelper_zz (X Y : List Char) (M N : ℕ) (seuil : ℤ) (hs : seuil < 0) :
    ∀ (fuel : ℕ) (col : ℕ → ℤ), coHelper X Y M N seuil fuel col 0 0 = none := by
  intro fuel
  induction fuel with
  | zero => intro col; rw [coHelper]
  | succ fuel IH =>
    intro col
    simp only [coHelper]
    rw [if_pos (by omega), IH col]

lemma coHelper_zo (X Y : List Char) (M N : ℕ) :
    ∀ (fuel : ℕ) (col : ℕ → ℤ),
      coHelper X Y M N (0 : ℤ) fuel col 0 1 = none := by
  intro fuel
  induction fuel with
  | zero => intro col; rw [coHelper]
  | succ fuel IH =>
    intro col
    simp only [coHelper]
    rw [if_pos (by omega)]
    cases fuel with
    | zero => rw [show coHelper X Y M N 0 0 col 0 ((1 - 0) / 2 + 0) = none from rfl]
    | succ f =>
      have hl : ∃ c2, coHelper X Y M N 0 (f + 1) col 0 ((1 - 0) / 2 + 0) =
          some (some c2) := by
        simp only [coHelper]
        rw [if_neg (by omega), if_pos (by omega)]
        exact ⟨_, rfl⟩
      obtain ⟨c2, hc2⟩ := hl
      rw [hc2]
      exact IH c2

lemma coHelper_div (X Y : List Char) (M N : ℕ) (seuil : ℤ) (hs : seuil ≤ 0) :
    ∀ (n : ℕ), 1 ≤ n → ∀ (fuel : ℕ) (col : ℕ → ℤ),
      coHelper X Y M N seuil fuel col 0 n = none := by
  intro n
  induction n using Nat.strong_induction_on with
  | _ n IH =>
    intro h1 fuel col
    by_cases hone : n = 1
    · subst hone
      rcases lt_or_eq_of_le hs with hlt | heq
      · cases fuel with
        | zero => rw [coHelper]
        | succ f =>
          simp only [coHelper]
          rw [if_pos (by omega), coHelper_zz X Y M N seuil hlt f col]
      · rw [heq]
        exact coHelper_zo X Y M N fuel col
    · have h2 : 2 ≤ n := by omega
      cases fuel with
      | zero => rw [coHelper]
      | succ f =>
        simp only [coHelper]
        rw [if_pos (by omega),
          IH ((n - 0) / 2 + 0) (by omega) (by omega) f col]

lemma cache_oblivious_div (A B : List Char) (t : ℤ) (ht : t ≤ 0)
    (hN : 1 ≤ min A.length B.length) :
    EditDistance_NW_cache_oblivious A B t = none := by
  have hlen : 1 ≤ (orderSeqs A B).2.length := by rw [orderSeqs_snd_len]; omega
  simp only [EditDistance_NW_cache_oblivious]
  rw [coHelper_div (orderSeqs A B).1 (orderSeqs A B).2 (orderSeqs A B).1.length
    (orderSeqs A B).2.length t ht (orderSeqs A B).2.length hlen _ _]

lemma cache_oblivious_N0 (A B : List Char) (t : ℤ) (ht : 0 ≤ t)
    (h : (orderSeqs A B).2.length = 0) :
    EditDistance_NW_cache_oblivious A B t =
      some (some (phiIt (orderSeqs A B).1 (orderSeqs A B).2)) := by
  have hY : (orderSeqs A B).2 = [] := List.length_eq_zero.mp h
  simp only [EditDistance_NW_cache_oblivious]
  rw [h]
  simp only [coHelper]
  rw [if_neg (by omega), if_pos (by omega)]
  obtain ⟨c1, c2⟩ := initLoop_col_spec (orderSeqs A B).1 (orderSeqs A B).2
    (fun i => (orderSeqs A B).1.getD ((orderSeqs A B).1.length - i) ' ')
    (fun i _ _ => rfl)
    (orderSeqs A B).1.length 1 (fun _ => 0)
    (by omega) (by omega)
    (by simpa using (gridT_zz (orderSeqs A B).1 (orderSeqs A B).2).symm)
  have hcol0 : ∀ b, b ≤ (orderSeqs A B).1.length →
      initLoop (fun i => (orderSeqs A B).1.getD ((orderSeqs A B).1.length - i) ' ')
        (fun _ => 0) 1 (orderSeqs A B).1.length b =
      gridT (orderSeqs A B).1 (orderSeqs A B).2 b 0 := by
    intro b hb
    by_cases hb0 : b = 0
    · subst hb0
      rw [c2 0 (Or.inl (by omega))]
      exact (gridT_zz _ _).symm
    · exact c1 b (by omega) (by omega)
  have hrows := blockRows_spec (orderSeqs A B).1 (orderSeqs A B).2
    (fun i => (orderSeqs A B).1.getD ((orderSeqs A B).1.length - i) ' ')
    (fun j => (orderSeqs A B).2.getD (0 - j - 0) ' ')
    0 (0 - 0)
    (fun i _ _ => rfl)
    (fun j hj1 hj2 => absurd hj2 (by omega))
    (by omega)
    (orderSeqs A B).1.length 1
    (initLoop (fun j => (orderSeqs A B).2.getD (0 - j - 0) ' ')
      (upd (fun _ => 0) 0
        (initLoop
          (fun i => (orderSeqs A B).1.getD ((orderSeqs A B).1.length - i) ' ')
          (fun _ => 0) 1 (orderSeqs A B).1.length 0)) 1 (0 - 0))
    (upd
      (initLoop (fun i => (orderSeqs A B).1.getD ((orderSeqs A B).1.length - i) ' ')
        (fun _ => 0) 1 (orderSeqs A B).1.length)
      0
      (initLoop (fun j => (orderSeqs A B).2.getD (0 - j - 0) ' ')
        (upd (fun _ => 0) 0
          (initLoop
            (fun i => (orderSeqs A B).1.getD ((orderSeqs A B).1.length - i) ' ')
            (fun _ => 0) 1 (orderSeqs A B).1.length 0)) 1 (0 - 0) 0))
    (by omega) (by omega)
    (fun a ha => by
      have ha0 : a = 0 := by omega
      subst ha0
      rw [initLoop, upd]
      simp only [if_pos rfl]
      rw [hcol0 0 (by omega)]
      exact congrArg (gridT (orderSeqs A B).1 (orderSeqs A B).2 0) (by omega))
    (fun b hb hbi => by
      have hne : ¬ b = 0 := by omega
      rw [upd]
      simp only [hne, if_false]
      exact hcol0 b hb)
    (fun b hb hbi => by
      have hb0 : b = 0 := by omega
      subst hb0
      rw [upd]
      simp only [if_pos rfl]
      rw [initLoop, upd]
      simp only [if_pos rfl]
      rw [hcol0 0 (by omega)]
      exact congrArg (gridT (orderSeqs A B).1 (orderSeqs A B).2 0) (by omega))
  have hv := hrows (orderSeqs A B).1.length le_rfl
  rw [if_pos (by omega)] at hv
  refine Eq.trans (congrArg (fun v => some (some v)) hv) ?_
  unfold gridT
  rw [hY]
  simp [List.drop_length]

lemma cache_oblivious_N0_neg (A B : List Char) (t : ℤ) (ht : t < 0)
    (h : (orderSeqs A B).2.length = 0) :
    EditDistance_NW_cache_oblivious A B t = none := by
  simp only [EditDistance_NW_cache_oblivious]
  rw [h]
  simp only [coHelper]
  rw [if_pos (by omega)]

lemma phiIt_ordered (A B : List Char) :
    phiIt (orderSeqs A B).1 (orderSeqs A B).2 = phiIt A B := by
  unfold orderSeqs
  by_cases h : B.length ≤ A.length
  · simp [h]
  · simp [h, phiIt_comm B A]

/-! ## The claims -/

/-- C1: the four entry points are claimed to return the same distance on every
input and valid tuning parameters.  The code does not: on ("AA","AA") with
threshold 1 the cache-oblivious engine reads `tab[fin_seq]` out of bounds
(line 380; the in-range analogue in the cache-aware engine is `tab[bordure]`,
line 276) instead of producing the common value 0; and on ("N","N") the
memoized engine charges `SUBSTITUTION_UNKNOWN_COST` (returns 1, lines 81-82)
while the iterative engine tests only `isSameBase` (returns 0, line 216). -/
theorem NW_C1_engines_disagree :
    EditDistance_NW_Rec ['A', 'A'] ['A', 'A'] = 0 ∧
    EditDistance_NW_iteratif ['A', 'A'] ['A', 'A'] = 0 ∧
    EditDistance_NW_cache_aware ['A', 'A'] ['A', 'A'] 100 = some 0 ∧
    EditDistance_NW_cache_oblivious ['A', 'A'] ['A', 'A'] 2 = some (some 0) ∧
    EditDistance_NW_cache_oblivious ['A', 'A'] ['A', 'A'] 1 = some none ∧
    EditDistance_NW_Rec ['N'] ['N'] = 1 ∧
    EditDistance_NW_iteratif ['N'] ['N'] = 0 := by
  refine ⟨by decide, by decide, by decide, by decide, by decide, by decide, by decide⟩

/-- C2: the cache-oblivious result is claimed invariant under the threshold
(for thresholds at least 1).  The code violates this: with threshold 1 on
("AC","AG") the helper's second base block runs with `debut_seq > 0` and the
line-380 read `tab[fin_seq]` leaves the `taille + 1`-cell array, while
threshold 2 computes the value 1 in a single block. -/
theorem NW_C2_threshold_changes_result :
    EditDistance_NW_cache_oblivious ['A', 'C'] ['A', 'G'] 1 = some none ∧
    EditDistance_NW_cache_oblivious ['A', 'C'] ['A', 'G'] 2 = some (some 1) ∧
    ¬ EditDistance_NW_cache_oblivious ['A', 'C'] ['A', 'G'] 1 =
        EditDistance_NW_cache_oblivious ['A', 'C'] ['A', 'G'] 2 := by
  refine ⟨by decide, by decide, by decide⟩

/-- C3 counterexample: the distance of a sequence against itself is not always
0 — the memoized engine charges the unknown-substitution cost when the
unknown base is aligned with itself, so ("N","N") has distance 1. -/
theorem NW_C3_self_not_zero :
    EditDistance_NW_Rec ['N'] ['N'] = 1 ∧
    ¬ EditDistance_NW_Rec ['N'] ['N'] = 0 := by
  refine ⟨by decide, by decide⟩

/-- C3 as amended: the iterative engine returns 0 on (A,A) for every A
(unknown bases and non-base characters included), and so do the cache-aware
engine whenever its block count `Z/40` is at least 1 and the cache-oblivious
engine whenever `|A| ≤ t` with `t ≥ 1`; the memoized engine returns 0 on
(A,A) provided A contains no unknown-base symbol. -/
theorem NW_C3_self_distance (A : List Char) (Z : ℕ) (t : ℤ) :
    EditDistance_NW_iteratif A A = 0 ∧
    (1 ≤ Z / 40 → EditDistance_NW_cache_aware A A Z = some 0) ∧
    (1 ≤ t → (A.length : ℤ) ≤ t →
      EditDistance_NW_cache_oblivious A A t = some (some 0)) ∧
    ((∀ c ∈ A, isUnknownBase c = false) → EditDistance_NW_Rec A A = 0) := by
  refine ⟨?_, ?_, ?_, ?_⟩
  · rw [iteratif_eq_phiIt_AB, phiIt_self]
  · intro hZ
    rw [cache_aware_eq_AB A A Z hZ, phiIt_self]
  · intro ht hlen
    rw [cache_oblivious_eq_AB A A t ht (by rw [min_self]; exact hlen), phiIt_self]
  · intro hA
    rw [Rec_eq_phiM_AB, phiM_self A hA]

theorem NW_C3_self_distance_witness :
    EditDistance_NW_iteratif ['A', 'C'] ['A', 'C'] = 0 ∧
    EditDistance_NW_cache_aware ['A', 'C'] ['A', 'C'] 80 = some 0 ∧
    EditDistance_NW_cache_oblivious ['A', 'C'] ['A', 'C'] 5 = some (some 0) ∧
    EditDistance_NW_Rec ['A', 'C'] ['A', 'C'] = 0 := by
  obtain ⟨h1, h2, h3, h4⟩ := NW_C3_self_distance ['A', 'C'] 80 5
  exact ⟨h1, h2 (by decide), h3 (by decide) (by decide), h4 (by decide)⟩

/-- C4: `EditDistance_NW_Rec` returns phi(0,0) of the recurrence of spec
section 4.1 — written out as `phiSpec`, including its boundary, skip and
substitution-cost clauses — evaluated on the ordered pair (X = longer,
Y = shorter). -/
theorem NW_C4_rec_matches_spec (A B : List Char) :
    EditDistance_NW_Rec A B = phiSpec (orderSeqs A B).1 (orderSeqs A B).2 := by
  rw [Rec_eq_phiM, phiM_eq_phiSpec]

/-- C5: for every input pair and every tuning value, each of the four engines
returns the same result on (A,B) and on (B,A) — including when the two
sequences have equal length, and including the degenerate outcomes (the
out-of-bounds marker and non-termination) of the tuned engines. -/
theorem NW_C5_symmetry (A B : List Char) (Z : ℕ) (t : ℤ) :
    EditDistance_NW_Rec A B = EditDistance_NW_Rec B A ∧
    EditDistance_NW_iteratif A B = EditDistance_NW_iteratif B A ∧
    EditDistance_NW_cache_aware A B Z = EditDistance_NW_cache_aware B A Z ∧
    EditDistance_NW_cache_oblivious A B t =
      EditDistance_NW_cache_oblivious B A t := by
  refine ⟨?_, ?_, ?_, ?_⟩
  · rw [Rec_eq_phiM_AB, Rec_eq_phiM_AB]
    exact phiM_comm A B
  · rw [iteratif_eq_phiIt_AB, iteratif_eq_phiIt_AB]
    exact phiIt_comm A B
  · by_cases hz : 1 ≤ Z / 40
    · rw [cache_aware_eq_AB A B Z hz, cache_aware_eq_AB B A Z hz, phiIt_comm]
    · have hz0 : Z / 40 = 0 := by omega
      by_cases hmin : 1 ≤ min A.length B.length
      · rw [cache_aware_div A B Z hz0 hmin,
          cache_aware_div B A Z hz0 (by omega)]
      · rw [cache_aware_N0 A B Z (by rw [orderSeqs_snd_len]; omega),
          cache_aware_N0 B A Z (by rw [orderSeqs_snd_len]; omega),
          phiIt_ordered A B, phiIt_ordered B A, phiIt_comm A B]
  · by_cases ht : 1 ≤ t
    · by_cases hm : (min A.length B.length : ℤ) ≤ t
      · rw [cache_oblivious_eq_AB A B t ht hm,
          cache_oblivious_eq_AB B A t ht (by omega),
          phiIt_comm]
      · have hm2 : t < (min A.length B.length : ℤ) := by omega
        rw [cache_oblivious_oob_AB A B t ht hm2,
          cache_oblivious_oob_AB B A t ht (by omega)]
    · have ht0 : t ≤ 0 := by omega
      by_cases hmin : 1 ≤ min A.length B.length
      · rw [cache_oblivious_div A B t ht0 hmin,
          cache_oblivious_div B A t ht0 (by omega)]
      · by_cases ht00 : t = 0
        · subst ht00
          rw [cache_oblivious_N0 A B 0 le_rfl (by rw [orderSeqs_snd_len]; omega),
            cache_oblivious_N0 B A 0 le_rfl (by rw [orderSeqs_snd_len]; omega),
            phiIt_ordered A B, phiIt_ordered B A, phiIt_comm A B]
        · have htn : t < 0 := by omega
          rw [cache_oblivious_N0_neg A B t htn (by rw [orderSeqs_snd_len]; omega),
            cache_oblivious_N0_neg B A t htn (by rw [orderSeqs_snd_len]; omega)]

/-- C6 counterexample: the cache-aware result is not invariant under every
choice of budget — byte budget 0 gives block width 0/40 = 0, so on ("A","A")
the block loop never terminates (embedded: no fuel suffices, result `none`),
while budget 100 returns the distance 0. -/
theorem NW_C6_budget_changes_result :
    EditDistance_NW_cache_aware ['A'] ['A'] 0 = none ∧
    EditDistance_NW_cache_aware ['A'] ['A'] 100 = some 0 ∧
    ¬ EditDistance_NW_cache_aware ['A'] ['A'] 0 =
        EditDistance_NW_cache_aware ['A'] ['A'] 100 := by
  refine ⟨by decide, by decide, by decide⟩

/-- C6 as amended: for any two budgets whose derived block width `Z/40` is at
least 1 — which includes budgets smaller than one row and larger than the
whole table — the cache-aware engine returns the same value. -/
theorem NW_C6_budget_invariance (A B : List Char) (Z1 Z2 : ℕ)
    (h1 : 1 ≤ Z1 / 40) (h2 : 1 ≤ Z2 / 40) :
    EditDistance_NW_cache_aware A B Z1 = EditDistance_NW_cache_aware A B Z2 := by
  rw [cache_aware_eq_AB A B Z1 h1, cache_aware_eq_AB A B Z2 h2]

theorem NW_C6_budget_invariance_witness :
    EditDistance_NW_cache_aware ['A', 'C', 'G', 'T', 'A'] ['A', 'G'] 40 =
      EditDistance_NW_cache_aware ['A', 'C', 'G', 'T', 'A'] ['A', 'G'] 4000 := by
  exact NW_C6_budget_invariance ['A', 'C', 'G', 'T', 'A'] ['A', 'G'] 40 4000
    (by decide) (by decide)

/-- C7 counterexample: the engines do not all run to completion for every
tuning value — with budget 0 the cache-aware block loop subtracts a zero
block width from `N` forever on ("A","A"): the embedded loop returns `none`
at every fuel. -/
theorem NW_C7_aware_diverges : cacheAwareDiverges ['A'] ['A'] 0 := by
  intro fuel
  exact awareLoop_stuck (orderSeqs ['A'] ['A']).1 (orderSeqs ['A'] ['A']).2
    (orderSeqs ['A'] ['A']).1.length fuel _ _ _ (by decide)

/-- C7 as amended: the memoized and iterative engines always terminate (they
are total functions of this development); the cache-aware engine terminates
whenever its derived block width `Z/40` is at least 1, and the
cache-oblivious recursion terminates whenever `t ≥ 1` (its fueled embedding
returns a result, possibly the out-of-bounds marker). -/
theorem NW_C7_termination (A B : List Char) (Z : ℕ) (t : ℤ) :
    (1 ≤ Z / 40 → ∃ v, EditDistance_NW_cache_aware A B Z = some v) ∧
    (1 ≤ t → ∃ r, EditDistance_NW_cache_oblivious A B t = some r) := by
  constructor
  · intro hZ
    exact ⟨phiIt A B, cache_aware_eq_AB A B Z hZ⟩
  · intro ht
    by_cases hm : (min A.length B.length : ℤ) ≤ t
    · exact ⟨some (phiIt A B), cache_oblivious_eq_AB A B t ht hm⟩
    · exact ⟨none, cache_oblivious_oob_AB A B t ht (by omega)⟩

theorem NW_C7_termination_witness :
    (∃ v, EditDistance_NW_cache_aware ['A', 'C'] ['G'] 40 = some v) ∧
    (∃ r, EditDistance_NW_cache_oblivious ['A', 'C'] ['G'] 1 = some r) := by
  exact ⟨(NW_C7_termination ['A', 'C'] ['G'] 40 1).1 (by decide),
    (NW_C7_termination ['A', 'C'] ['G'] 40 1).2 (by decide)⟩

/-- C8 counterexample: deleting a non-base character is not neutral for the
cache-oblivious engine at a fixed threshold — removing '-' from "A-" shortens
the pair ("A-","AC") below the threshold-1 out-of-bounds regime, turning the
marker `some none` into the value 2. -/
theorem NW_C8_deletion_not_neutral :
    isBase '-' = false ∧
    EditDistance_NW_cache_oblivious ['A', '-'] ['A', 'C'] 1 = some none ∧
    EditDistance_NW_cache_oblivious ['A'] ['A', 'C'] 1 = some (some 2) ∧
    ¬ EditDistance_NW_cache_oblivious ['A', '-'] ['A', 'C'] 1 =
        EditDistance_NW_cache_oblivious ['A'] ['A', 'C'] 1 := by
  refine ⟨by decide, by decide, by decide, by decide⟩

/-- C8 as amended: deleting a character that is not a canonical base from
either sequence leaves the memoized and iterative results unchanged; the
same holds for the cache-aware engine whenever its block width `Z/40` is at
least 1, and for the cache-oblivious engine whenever `t ≥ 1` and `t` is at
least the shorter length of the larger pair (so both calls stay in the
value-computing regime). -/
theorem NW_C8_nonbase_deletion (c : Char) (B l1 l2 : List Char)
    (hc : isBase c = false) :
    EditDistance_NW_Rec (l1 ++ c :: l2) B = EditDistance_NW_Rec (l1 ++ l2) B ∧
    EditDistance_NW_Rec B (l1 ++ c :: l2) = EditDistance_NW_Rec B (l1 ++ l2) ∧
    EditDistance_NW_iteratif (l1 ++ c :: l2) B =
      EditDistance_NW_iteratif (l1 ++ l2) B ∧
    EditDistance_NW_iteratif B (l1 ++ c :: l2) =
      EditDistance_NW_iteratif B (l1 ++ l2) ∧
    (∀ Z : ℕ, 1 ≤ Z / 40 →
      EditDistance_NW_cache_aware (l1 ++ c :: l2) B Z =
        EditDistance_NW_cache_aware (l1 ++ l2) B Z ∧
      EditDistance_NW_cache_aware B (l1 ++ c :: l2) Z =
        EditDistance_NW_cache_aware B (l1 ++ l2) Z) ∧
    (∀ t : ℤ, 1 ≤ t → (min (l1 ++ c :: l2).length B.length : ℤ) ≤ t →
      EditDistance_NW_cache_oblivious (l1 ++ c :: l2) B t =
        EditDistance_NW_cache_oblivious (l1 ++ l2) B t ∧
      EditDistance_NW_cache_oblivious B (l1 ++ c :: l2) t =
        EditDistance_NW_cache_oblivious B (l1 ++ l2) t) := by
  have hlen : (l1 ++ l2).length ≤ (l1 ++ c :: l2).length := by
    simp [List.length_append]
  refine ⟨?_, ?_, ?_, ?_, ?_, ?_⟩
  · rw [Rec_eq_phiM_AB, Rec_eq_phiM_AB]
    exact phiM_insert_x c hc l1 l2 B
  · rw [Rec_eq_phiM_AB, Rec_eq_phiM_AB]
    exact phiM_insert_y c hc B l1 l2
  · rw [iteratif_eq_phiIt_AB, iteratif_eq_phiIt_AB]
    exact phiIt_insert_x c hc l1 l2 B
  · rw [iteratif_eq_phiIt_AB, iteratif_eq_phiIt_AB]
    exact phiIt_insert_y c hc B l1 l2
  · intro Z hZ
    constructor
    · rw [cache_aware_eq_AB _ B Z hZ, cache_aware_eq_AB _ B Z hZ]
      exact congrArg some (phiIt_insert_x c hc l1 l2 B)
    · rw [cache_aware_eq_AB B _ Z hZ, cache_aware_eq_AB B _ Z hZ]
      exact congrArg some (phiIt_insert_y c hc B l1 l2)
  · intro t ht htm
    have htm2 : (min (l1 ++ l2).length B.length : ℤ) ≤ t := by
      have : min (l1 ++ l2).length B.length ≤
          min (l1 ++ c :: l2).length B.length :=
        min_le_min hlen le_rfl
      omega
    constructor
    · rw [cache_oblivious_eq_AB _ B t ht htm, cache_oblivious_eq_AB _ B t ht htm2]
      rw [phiIt_insert_x c hc l1 l2 B]
    · rw [cache_oblivious_eq_AB B _ t ht (by omega),
        cache_oblivious_eq_AB B _ t ht (by omega)]
      rw [phiIt_insert_y c hc B l1 l2]

theorem NW_C8_nonbase_deletion_witness :
    EditDistance_NW_Rec ['A', '-'] ['A', 'C'] = EditDistance_NW_Rec ['A'] ['A', 'C'] ∧
    EditDistance_NW_Rec ['A', 'C'] ['A', '-'] = EditDistance_NW_Rec ['A', 'C'] ['A'] ∧
    EditDistance_NW_iteratif ['A', '-'] ['A', 'C'] =
      EditDistance_NW_iteratif ['A'] ['A', 'C'] ∧
    EditDistance_NW_iteratif ['A', 'C'] ['A', '-'] =
      EditDistance_NW_iteratif ['A', 'C'] ['A'] ∧
    (EditDistance_NW_cache_aware ['A', '-'] ['A', 'C'] 40 =
        EditDistance_NW_cache_aware ['A'] ['A', 'C'] 40 ∧
      EditDistance_NW_cache_aware ['A', 'C'] ['A', '-'] 40 =
        EditDistance_NW_cache_aware ['A', 'C'] ['A'] 40) ∧
    (EditDistance_NW_cache_oblivious ['A', '-'] ['A', 'C'] 2 =
        EditDistance_NW_cache_oblivious ['A'] ['A', 'C'] 2 ∧
      EditDistance_NW_cache_oblivious ['A', 'C'] ['A', '-'] 2 =
        EditDistance_NW_cache_oblivious ['A', 'C'] ['A'] 2) := by
  obtain ⟨h1, h2, h3, h4, h5, h6⟩ :=
    NW_C8_nonbase_deletion '-' ['A', 'C'] ['A'] [] (by decide)
  exact ⟨h1, h2, h3, h4, h5 40 (by decide), h6 2 (by decide) (by decide)⟩

/-- C9 counterexample: `ManageBaseError` is not invoked for every non-base
character by every engine — the iterative engine never calls it (its log is
empty even on input "-"), and even the memoized engine skips it when the
non-base character is consumed by a boundary case (input "-" against the
empty sequence logs nothing). -/
theorem NW_C9_hook_not_called :
    isBase '-' = false ∧
    EditDistance_NW_iteratif_log ['-'] ['A'] = [] ∧
    EditDistance_NW_Rec_log ['-'] [] = [] := by
  refine ⟨by decide, by decide, by decide⟩

/-- C9 as amended: only the memoized engine invokes `ManageBaseError`, and
every character it passes to the hook is a non-base character; the iterative
engine's log is always empty. -/
theorem NW_C9_log_sound (A B : List Char) :
    (∀ c ∈ EditDistance_NW_Rec_log A B, isBase c = false) ∧
    EditDistance_NW_iteratif_log A B = [] := by
  exact ⟨Rec_log_nonbase A B, rfl⟩

theorem NW_C9_log_sound_witness :
    isBase '-' = false ∧ EditDistance_NW_iteratif_log ['A', '-'] ['C'] = [] := by
  exact ⟨(NW_C9_log_sound ['A', '-'] ['C']).1 '-' (by decide),
    (NW_C9_log_sound ['A', '-'] ['C']).2⟩

/-- C10 counterexample: the claim that the base-block read `tab[fin_seq]`
(line 380) always stays in range is false — on ("AC","AC") with threshold 1
the second block runs with `debut_seq = 1 > 0` and `fin_seq = 2` on a
`taille + 1 = 2`-cell array, and the embedded engine reports the
out-of-bounds marker instead of a value. -/
theorem NW_C10_read_out_of_range :
    EditDistance_NW_cache_oblivious ['A', 'C'] ['A', 'C'] 1 = some none := by
  decide

/-- C10 as amended: whenever the threshold is at least 1 but smaller than the
shorter sequence length, the recursion reaches a base block with
`debut_seq > 0` and the line-380 read leaves the array: the whole
computation yields the out-of-bounds marker, never a value. -/
theorem NW_C10_oob_regime (A B : List Char) (t : ℤ) (ht : 1 ≤ t)
    (hm : t < (min A.length B.length : ℤ)) :
    EditDistance_NW_cache_oblivious A B t = some none := by
  exact cache_oblivious_oob_AB A B t ht hm

theorem NW_C10_oob_regime_witness :
    EditDistance_NW_cache_oblivious ['A', 'C', 'G'] ['A', 'C', 'G'] 2 =
      some none := by
  exact NW_C10_oob_regime ['A', 'C', 'G'] ['A', 'C', 'G'] 2 (by decide) (by decide)
